import Mathlib

/-!
Shallow embedding of the tree manipulation engine of the genesis repository
(src/lib/genesis/tree/function/manipulation.cpp) together with the parts of the
data model it rests on.  C++ pointers to tree elements are modelled as stable
identifiers (`id` fields); the mutable stored index of every element is the
`index` field; the three element collections are lists; loops carry explicit
fuel.  Parts of the repository that the manipulation code uses but whose
sources are not available (the Tree container accessors, `degree`,
`belongs_to`, the preorder iterator, `subtree_sizes`, `stable_sort_indices`,
`minmax_value`) are modelled from the specification and are marked as such.
-/

set_option linter.unusedVariables false

namespace Genesis

/-- A link of the tree: the unit of adjacency.  The cross references `next_`
(next link in the owner node's ring), `outer_` (partner link on the opposite
end of the same edge), `node_` (owner node) and `edge_` (owning edge) are
stable identifiers playing the role of the C++ pointers; `index` is the
mutable stored index field. -/
structure TreeLink where
  id : Nat
  index : Nat
  next_ : Nat
  outer_ : Nat
  node_ : Nat
  edge_ : Nat
deriving Repr, DecidableEq

/-- A node of the tree: `link_` is the id of its primary link (the ring link
oriented toward the current root), `data_` its payload (a type tag when
present, `none` when absent). -/
structure TreeNode where
  id : Nat
  index : Nat
  link_ : Nat
  data_ : Option Nat
deriving Repr, DecidableEq

/-- An edge of the tree: `link_p` and `link_s` are the ids of its primary and
secondary links. -/
structure TreeEdge where
  id : Nat
  index : Nat
  link_p : Nat
  link_s : Nat
  data_ : Option Nat
deriving Repr, DecidableEq

instance : Inhabited TreeLink := ⟨⟨0, 0, 0, 0, 0, 0⟩⟩
instance : Inhabited TreeNode := ⟨⟨0, 0, 0, none⟩⟩
instance : Inhabited TreeEdge := ⟨⟨0, 0, 0, 0, none⟩⟩

/-- The element arena: three indexed collections of links, nodes and edges,
plus the stored root link index `root_link_`.  `next_id` is the supply of
fresh identifiers (fresh C++ heap addresses). -/
structure Tree where
  links : List TreeLink
  nodes : List TreeNode
  edges : List TreeEdge
  root_link_ : Nat
  next_id : Nat
deriving Repr, DecidableEq

/-- Dereference a link pointer (id). -/
def Tree.link_of (t : Tree) (lid : Nat) : TreeLink :=
  (t.links.find? (fun l => l.id == lid)).getD default

/-- Dereference a node pointer (id). -/
def Tree.node_of (t : Tree) (nid : Nat) : TreeNode :=
  (t.nodes.find? (fun n => n.id == nid)).getD default

/-- Dereference an edge pointer (id). -/
def Tree.edge_of (t : Tree) (eid : Nat) : TreeEdge :=
  (t.edges.find? (fun e => e.id == eid)).getD default

/-- Mutate the link with the given id in place. -/
def Tree.upd_link (t : Tree) (lid : Nat) (f : TreeLink → TreeLink) : Tree :=
  { t with links := t.links.map (fun l => if l.id == lid then f l else l) }

/-- Mutate the node with the given id in place. -/
def Tree.upd_node (t : Tree) (nid : Nat) (f : TreeNode → TreeNode) : Tree :=
  { t with nodes := t.nodes.map (fun n => if n.id == nid then f n else n) }

/-- Mutate the edge with the given id in place. -/
def Tree.upd_edge (t : Tree) (eid : Nat) (f : TreeEdge → TreeEdge) : Tree :=
  { t with edges := t.edges.map (fun e => if e.id == eid then f e else e) }

/-- Modelled from the spec: the arena accessor `link_at(i)`, the element at
position `i` of the link collection. -/
def Tree.link_at (t : Tree) (i : Nat) : TreeLink := t.links.getD i default

/-- Modelled from the spec: the arena accessor `node_at(i)`. -/
def Tree.node_at (t : Tree) (i : Nat) : TreeNode := t.nodes.getD i default

/-- Modelled from the spec: the arena accessor `edge_at(i)`. -/
def Tree.edge_at (t : Tree) (i : Nat) : TreeEdge := t.edges.getD i default

def Tree.link_count (t : Tree) : Nat := t.links.length
def Tree.node_count (t : Tree) : Nat := t.nodes.length
def Tree.edge_count (t : Tree) : Nat := t.edges.length

/-- Modelled from the spec: `root_link()` is resolved via the stored root
link index. -/
def Tree.root_link (t : Tree) : TreeLink := t.link_at t.root_link_

/-- Modelled from the spec: the root node is the owner of the root link. -/
def Tree.root_node (t : Tree) : TreeNode := t.node_of t.root_link.node_

/-- Modelled from the spec: `belongs_to` — the ownership check that the given
node (pointer) is an element of this tree. -/
def Tree.has_node (t : Tree) (nid : Nat) : Bool :=
  (t.nodes.find? (fun n => n.id == nid)).isSome

/-- Modelled from the spec: `belongs_to` for edges. -/
def Tree.has_edge (t : Tree) (eid : Nat) : Bool :=
  (t.edges.find? (fun e => e.id == eid)).isSome

/-- Modelled from the spec: `belongs_to` for links. -/
def Tree.has_link (t : Tree) (lid : Nat) : Bool :=
  (t.links.find? (fun l => l.id == lid)).isSome

/-- Modelled from the spec: walk the ring `next` relation starting at `cur`,
collecting link ids until the walk gets back to `stop` (with explicit fuel). -/
def ringFromAux (t : Tree) (stop : Nat) : Nat → Nat → List Nat
  | 0, _ => []
  | fuel + 1, cur =>
    if cur == stop then [] else cur :: ringFromAux t stop fuel (t.link_of cur).next_

/-- Modelled from the spec: the ring of links starting at the given link. -/
def Tree.ring (t : Tree) (lid : Nat) : List Nat :=
  lid :: ringFromAux t lid t.links.length (t.link_of lid).next_

/-- Modelled from the spec: `degree(node)` — the number of links in the
node's ring. -/
def Tree.degree (t : Tree) (nid : Nat) : Nat :=
  (t.ring (t.node_of nid).link_).length

/-- Modelled from the spec: `is_leaf(node)` — a node of degree 1. -/
def Tree.is_leaf (t : Tree) (nid : Nat) : Bool := t.degree nid == 1

/-- Modelled from the spec: `is_root(node)` — the owner of the root link. -/
def Tree.is_root (t : Tree) (nid : Nat) : Bool := t.root_node.id == nid

/-- The predecessor walk used by the ring splices of manipulation.cpp:
starting at `cur`, follow `next` until the link whose `next` is `target` is
found (with explicit fuel). -/
def findPred (t : Tree) (target : Nat) : Nat → Nat → Nat
  | 0, cur => cur
  | fuel + 1, cur =>
    if (t.link_of cur).next_ == target then cur
    else findPred t target fuel (t.link_of cur).next_

/-- Modelled from the spec: `utils::minmax_value`. -/
def minmax_value (a b : Nat) : Nat × Nat := (min a b, max a b)

def TreeLink.setIdx (i : Nat) (l : TreeLink) : TreeLink := { l with index := i }
def TreeNode.setIdx (i : Nat) (n : TreeNode) : TreeNode := { n with index := i }
def TreeEdge.setIdx (i : Nat) (e : TreeEdge) : TreeEdge := { e with index := i }

/-- The index renumber loop of manipulation.cpp: every element at position
`start` or later gets its stored index reset to its position (`i` is the
position of the head of the remaining list). -/
def reindexFromAux (setIdx : Nat → α → α) (start : Nat) : Nat → List α → List α
  | _, [] => []
  | i, x :: xs => (if start ≤ i then setIdx i x else x) :: reindexFromAux setIdx start (i + 1) xs

/-- Renumber from position `start` on. -/
def reindexFrom (setIdx : Nat → α → α) (start : Nat) (xs : List α) : List α :=
  reindexFromAux setIdx start 0 xs

/-- Result of a manipulation operation: a normal return carrying the mutated
tree and the returned element id, a reported precondition error (C++ throw),
or a crash (C++ null-pointer dereference). -/
inductive MResult where
  | ok (t : Tree) (ret : Nat)
  | err (msg : String)
  | fault
deriving Repr, DecidableEq

instance : Inhabited Tree := ⟨⟨[], [], [], 0, 0⟩⟩

/-- The tree carried by a normal result (the empty tree otherwise). -/
def MResult.tree : MResult → Tree
  | .ok t _ => t
  | _ => default

/-- Embedding of `add_new_node( Tree&, TreeNode& )` (attach a new leaf to a
node), manipulation.cpp lines 57-134.  Returns the new leaf node's id. -/
def add_new_node (t : Tree) (target : Nat) : MResult :=
  if ! t.has_node target then
    .err "Cannot add Node to a Tree where the given Node is not part of the Tree."
  else
    let con_id := t.next_id
    let end_id := t.next_id + 1
    let endnode_id := t.next_id + 2
    let conedge_id := t.next_id + 3
    let up := (t.node_of target).link_
    let con_index := t.links.length
    let last := findPred t up t.links.length up
    let t1 := t.upd_link last (fun l => { l with next_ := con_id })
    let con_link : TreeLink :=
      { id := con_id, index := con_index, next_ := up, outer_ := end_id,
        node_ := target, edge_ := conedge_id }
    let t2 : Tree := { t1 with links := t1.links ++ [con_link] }
    let end_link : TreeLink :=
      { id := end_id, index := t2.links.length, next_ := end_id, outer_ := con_id,
        node_ := endnode_id, edge_ := conedge_id }
    let t3 : Tree := { t2 with links := t2.links ++ [end_link] }
    match (t3.node_of target).data_ with
    | none => .fault
    | some nd =>
      let end_node : TreeNode :=
        { id := endnode_id, index := t3.nodes.length, link_ := end_id, data_ := some nd }
      let t4 : Tree := { t3 with nodes := t3.nodes ++ [end_node] }
      match (t4.edge_of (t4.link_of (t4.node_of target).link_).edge_).data_ with
      | none => .fault
      | some ed =>
        let con_edge : TreeEdge :=
          { id := conedge_id, index := t4.edges.length, link_p := con_id,
            link_s := end_id, data_ := some ed }
        .ok { t4 with edges := t4.edges ++ [con_edge], next_id := t.next_id + 4 } endnode_id

/-- Embedding of `add_new_node( Tree&, TreeEdge&, adjust_edges )` (split an
edge with a new mid node), manipulation.cpp lines 136-209.  The optional
callback receives the mutated tree and the ids of the target edge and of the
new secondary edge.  Returns the mid node's id. -/
def add_new_node_edge (t : Tree) (target_edge : Nat)
    (adjust_edges : Option (Tree → Nat → Nat → Tree)) : MResult :=
  if ! t.has_edge target_edge then
    .err "Cannot add Node to Tree on an Edge that is not part of the Tree."
  else
    let pri_id := t.next_id
    let sec_id := t.next_id + 1
    let mid_id := t.next_id + 2
    let sece_id := t.next_id + 3
    let P := (t.edge_of target_edge).link_p
    let S := (t.edge_of target_edge).link_s
    let pri_link : TreeLink :=
      { id := pri_id, index := t.links.length, next_ := sec_id, outer_ := P,
        node_ := mid_id, edge_ := target_edge }
    let t1 : Tree := { t with links := t.links ++ [pri_link] }
    let sec_link : TreeLink :=
      { id := sec_id, index := t1.links.length, next_ := pri_id, outer_ := S,
        node_ := mid_id, edge_ := sece_id }
    let t2 : Tree := { t1 with links := t1.links ++ [sec_link] }
    match (t2.node_of (t2.link_of P).node_).data_ with
    | none => .fault
    | some nd =>
      let mid_node : TreeNode :=
        { id := mid_id, index := t2.nodes.length, link_ := pri_id, data_ := some nd }
      let t3 : Tree := { t2 with nodes := t2.nodes ++ [mid_node] }
      match (t3.edge_of target_edge).data_ with
      | none => .fault
      | some ed =>
        let sec_edge : TreeEdge :=
          { id := sece_id, index := t3.edges.length, link_p := sec_id,
            link_s := S, data_ := some ed }
        let t4 : Tree :=
          { t3 with edges := t3.edges ++ [sec_edge], next_id := t.next_id + 4 }
        let t5 := t4.upd_link P (fun l => { l with outer_ := pri_id })
        let t6 := (t5.upd_link S (fun l => { l with outer_ := sec_id })).upd_link S
          (fun l => { l with edge_ := sece_id })
        let t7 := t6.upd_edge target_edge (fun e => { e with link_s := pri_id })
        match adjust_edges with
        | none => .ok t7 mid_id
        | some f => .ok (f t7 target_edge sece_id) mid_id

/-- Embedding of `delete_leaf_node`, manipulation.cpp lines 251-318. -/
def delete_leaf_node (t : Tree) (target : Nat) : MResult :=
  if ! t.has_node target then
    .err "Cannot delete Node from a Tree that is not part of the Tree."
  else if t.degree target != 1 then
    .err "Cannot delete leaf Node if the Node is not actually a leaf."
  else
    let tn := t.node_of target
    let tlink := t.link_of tn.link_
    let root_link_id :=
      if t.root_node.index == tn.index then tlink.outer_ else t.root_link.id
    let edge_idx := (t.edge_of tlink.edge_).index
    let t1 : Tree :=
      { t with edges := reindexFrom TreeEdge.setIdx edge_idx (t.edges.eraseIdx edge_idx) }
    let attach := (t1.link_of (t1.node_of target).link_).outer_
    let pred := findPred t1 attach t1.links.length (t1.link_of attach).next_
    let t2 := t1.upd_link pred
      (fun l => { l with next_ := (t1.link_of (t1.link_of pred).next_).next_ })
    let mm := minmax_value (t2.link_of attach).index
      (t2.link_of (t2.link_of attach).outer_).index
    let t3 : Tree :=
      { t2 with links :=
          reindexFrom TreeLink.setIdx mm.1 ((t2.links.eraseIdx mm.1).eraseIdx (mm.2 - 1)) }
    let node_idx := (t3.node_of target).index
    let t4 : Tree :=
      { t3 with nodes := reindexFrom TreeNode.setIdx node_idx (t3.nodes.eraseIdx node_idx) }
    .ok { t4 with root_link_ := (t4.link_of root_link_id).index } 0

/-- Embedding of `delete_linear_node`, manipulation.cpp lines 320-399.  The
optional callback receives the tree and the ids of the remaining and of the
deleted edge, before any structural change. -/
def delete_linear_node (t0 : Tree) (target : Nat)
    (adjust_edges : Option (Tree → Nat → Nat → Tree)) : MResult :=
  if ! t0.has_node target then
    .err "Cannot delete Node from a Tree that is not part of the Tree."
  else if t0.degree target != 2 then
    .err "Cannot delete linear Node if the Node is not actually linear (degree 2)."
  else
    let t := match adjust_edges with
      | some f =>
        f t0 (t0.link_of (t0.node_of target).link_).edge_
          (t0.link_of (t0.link_of (t0.node_of target).link_).next_).edge_
      | none => t0
    let root_link_id :=
      if t.root_node.index == (t.node_of target).index then
        (t.link_of (t.node_of target).link_).outer_
      else t.root_link.id
    let pr := (t.node_of target).link_
    let adj_p := (t.link_of pr).outer_
    let adj_d := (t.link_of (t.link_of pr).next_).outer_
    let ta := ((t.upd_link adj_p (fun l => { l with outer_ := adj_d })).upd_link adj_d
      (fun l => { l with outer_ := adj_p }))
    let tb := ta.upd_edge (ta.link_of adj_p).edge_ (fun e => { e with link_s := adj_d })
    let tc := tb.upd_edge (tb.link_of adj_d).edge_ (fun e => { e with link_p := adj_p })
    let td := tc.upd_link adj_d
      (fun l => { l with edge_ := (tc.link_of (tc.node_of target).link_).edge_ })
    let edge_idx := (td.edge_of (td.link_of (td.link_of pr).next_).edge_).index
    let t1 : Tree :=
      { td with edges := reindexFrom TreeEdge.setIdx edge_idx (td.edges.eraseIdx edge_idx) }
    let mm := minmax_value (t1.link_of pr).index (t1.link_of (t1.link_of pr).next_).index
    let t2 : Tree :=
      { t1 with links :=
          reindexFrom TreeLink.setIdx mm.1 ((t1.links.eraseIdx mm.1).eraseIdx (mm.2 - 1)) }
    let node_idx := (t2.node_of target).index
    let t3 : Tree :=
      { t2 with nodes := reindexFrom TreeNode.setIdx node_idx (t2.nodes.eraseIdx node_idx) }
    .ok { t3 with root_link_ := (t3.link_of root_link_id).index } 0

/-- The per-node result of the preorder walk over a subtree: the ids of the
visited nodes, and the stored indices of the nodes, edges and links to be
deleted. -/
structure SubtreeCollect where
  nds : List Nat
  nidx : List Nat
  eidx : List Nat
  lidx : List Nat
deriving Repr, DecidableEq

/-- The collected index lists are balanced: one node index, one edge index
and two link indices per visited node. -/
def SubtreeCollect.bal (c : SubtreeCollect) : Prop :=
  c.nidx.length = c.nds.length ∧ c.eidx.length = c.nds.length ∧
    c.lidx.length = 2 * c.nds.length

/-- Modelled from the spec: the preorder walk of the subtree anchored at link
`L` (the node owning `L` plus everything away from `L`'s outer side), as used
by `delete_subtree`: for every visited node it records the node id, the node
index, the index of the edge toward the starting point, and both link indices
of that edge. -/
def collectSub (t : Tree) : Nat → Nat → SubtreeCollect
  | 0, _ => ⟨[], [], [], []⟩
  | fuel + 1, L =>
    let l := t.link_of L
    let kids := ringFromAux t L t.links.length l.next_
    let sub := kids.foldr (fun c acc =>
      let r := collectSub t fuel (t.link_of c).outer_
      ⟨r.nds ++ acc.nds, r.nidx ++ acc.nidx, r.eidx ++ acc.eidx, r.lidx ++ acc.lidx⟩)
      (⟨[], [], [], []⟩ : SubtreeCollect)
    ⟨(t.node_of l.node_).id :: sub.nds,
      (t.node_of l.node_).index :: sub.nidx,
      (t.edge_of l.edge_).index :: sub.eidx,
      l.index :: (t.link_of l.outer_).index :: sub.lidx⟩

/-- Insertion into a sorted list of naturals. -/
def insertNat (a : Nat) : List Nat → List Nat
  | [] => [a]
  | b :: bs => if a ≤ b then a :: b :: bs else b :: insertNat a bs

/-- Sorting of the deletion index lists (`std::sort`). -/
def sortNat : List Nat → List Nat
  | [] => []
  | a :: as => insertNat a (sortNat as)

/-- The bulk compaction loop of `delete_subtree`: walk the old collection in
position order (`i`), skip any position at the head of the remaining sorted
deletion list, otherwise keep the element restamped with its new position
`i - k` where `k` counts the deletions so far. -/
def compactAux (setIdx : Nat → α → α) : List Nat → Nat → Nat → List α → List α
  | _, _, _, [] => []
  | d :: ds, i, k, x :: xs =>
    if d == i then compactAux setIdx ds (i + 1) (k + 1) xs
    else setIdx (i - k) x :: compactAux setIdx (d :: ds) (i + 1) k xs
  | [], i, k, x :: xs => setIdx (i - k) x :: compactAux setIdx [] (i + 1) k xs

/-- Bulk compaction of one collection given the sorted deletion list. -/
def compact (setIdx : Nat → α → α) (del : List Nat) (xs : List α) : List α :=
  compactAux setIdx del 0 0 xs

/-- Embedding of `delete_subtree`, manipulation.cpp lines 411-565.  A subtree
view is identified by its anchoring link id. -/
def delete_subtree (t : Tree) (anchor : Nat) : MResult :=
  if ! t.has_link anchor then
    .err "Cannot delete Subtree from a Tree that is not part of the Tree."
  else
    let col := collectSub t (t.links.length + 1) anchor
    let del_nodes := sortNat col.nidx
    let del_edges := sortNat col.eidx
    let del_links := sortNat col.lidx
    let contains_root := col.nds.contains t.root_node.id
    let root_link_id :=
      if contains_root then (t.link_of (t.link_of anchor).outer_).next_
      else t.root_link.id
    let attach := (t.link_of anchor).outer_
    let pred := findPred t attach t.links.length (t.link_of attach).next_
    let link_nc := (t.link_at (t.link_of pred).index).id
    let ta :=
      if (t.node_of (t.link_of link_nc).node_).link_ == (t.link_of link_nc).next_ then
        t.upd_node (t.link_of link_nc).node_
          (fun n => { n with link_ := (t.link_of (t.link_of link_nc).next_).next_ })
      else t
    let tb := ta.upd_link link_nc
      (fun l => { l with next_ := (ta.link_of (ta.link_of link_nc).next_).next_ })
    let tc : Tree :=
      { tb with
        nodes := compact TreeNode.setIdx del_nodes tb.nodes,
        edges := compact TreeEdge.setIdx del_edges tb.edges,
        links := compact TreeLink.setIdx del_links tb.links }
    .ok { tc with root_link_ := (tc.link_of root_link_id).index } 0

/-- Embedding of `delete_node`, manipulation.cpp lines 232-249: dispatch on
the degree of the target node.  The `Subtree{ target_node }` view anchors at
the node's primary link. -/
def delete_node (t : Tree) (target : Nat) : MResult :=
  if ! t.has_node target then
    .err "Cannot delete Node from a Tree that is not part of the Tree."
  else
    let deg := t.degree target
    if deg == 1 then delete_leaf_node t target
    else if deg == 2 then delete_linear_node t target none
    else delete_subtree t (t.node_of target).link_

/-- Embedding of `delete_edge`, manipulation.cpp lines 567-573: the body of
the function is empty. -/
def delete_edge (t : Tree) (target_edge : Nat)
    (adjust_nodes : Option (Tree → Nat → Nat → Tree)) : MResult :=
  .ok t 0

/-- The path walk of `reroot`, manipulation.cpp lines 598-624: from the link
`cur` walk toward the old root, swapping every crossed edge's primary and
secondary links and redirecting every passed node's primary link toward the
new root. -/
def rerootLoop (old_root : Nat) : Nat → Nat → Tree → Tree
  | 0, _, t => t
  | fuel + 1, cur, t =>
    if (t.link_of cur).node_ == old_root then t
    else
      let e := (t.link_of cur).edge_
      let lp := (t.edge_of e).link_p
      let ls := (t.edge_of e).link_s
      let t1 := t.upd_edge e (fun ed => { ed with link_p := ls, link_s := lp })
      let to_root := (t1.node_of (t1.link_of (t1.link_of cur).outer_).node_).link_
      let t2 := t1.upd_node (t1.link_of (t1.link_of cur).outer_).node_
        (fun n => { n with link_ := (t1.link_of cur).outer_ })
      rerootLoop old_root fuel to_root t2

/-- Embedding of `reroot( Tree&, TreeLink& )`, manipulation.cpp lines
579-625. -/
def reroot (t : Tree) (at_link : Nat) : MResult :=
  if ! t.has_link at_link then
    .err "Cannot reroot Tree on a Link that is not part of the Tree."
  else
    let old_root := t.root_node.id
    let cur := (t.node_of (t.link_at (t.link_of at_link).index).node_).link_
    let ta : Tree := { t with root_link_ := (t.link_of at_link).index }
    let tb := ta.upd_node (ta.link_of at_link).node_
      (fun n => { n with link_ := (ta.link_at (ta.link_of at_link).index).id })
    .ok (rerootLoop old_root tb.links.length cur tb) 0

/-- Embedding of `reroot( Tree&, TreeNode& )`: resolve to the node's own
primary link. -/
def reroot_node (t : Tree) (at_node : Nat) : MResult :=
  if ! t.has_node at_node then
    .err "Cannot reroot Tree on a Node that is not part of the Tree."
  else reroot t (t.node_of at_node).link_

/-- Embedding of `reroot_at_node( Tree&, size_t )`. -/
def reroot_at_node (t : Tree) (node_index : Nat) : MResult :=
  if t.node_count ≤ node_index then
    .err "Cannot reroot Tree on a Node that is not part of the Tree."
  else reroot_node t (t.node_at node_index).id

/-- Embedding of `add_new_leaf_node`, manipulation.cpp lines 211-219. -/
def add_new_leaf_node (t : Tree) (target_edge : Nat)
    (adjust_edges : Option (Tree → Nat → Nat → Tree)) : MResult :=
  match add_new_node_edge t target_edge adjust_edges with
  | .ok t1 mid => add_new_node t1 mid
  | r => r

/-- Embedding of `add_root_node`, manipulation.cpp lines 221-226. -/
def add_root_node (t : Tree) (target_edge : Nat) : MResult :=
  match add_new_node_edge t target_edge none with
  | .ok t1 mid =>
    match reroot_node t1 mid with
    | .ok t2 _ => .ok t2 mid
    | r => r
  | r => r

inductive LadderizeOrder where
  | kSmallFirst
  | kLargeFirst
deriving Repr, DecidableEq

/-- Modelled from the spec: the aggregate traversal behind `subtree_sizes` —
the number of nodes of the subtree anchored at link `L` (the owner of `L`
plus everything away from `L`'s outer side). -/
def subtreeSizeAt (t : Tree) : Nat → Nat → Nat
  | 0, _ => 0
  | fuel + 1, L =>
    let kids := ringFromAux t L t.links.length (t.link_of L).next_
    1 + (kids.map (fun c => subtreeSizeAt t fuel (t.link_of c).outer_)).sum

/-- Modelled from the spec: `subtree_sizes(tree)` at one node — the number of
nodes reachable from the node away from the root, the node itself included. -/
def sub_sizes (t : Tree) (nid : Nat) : Nat :=
  subtreeSizeAt t (t.links.length + 1) (t.node_of nid).link_

/-- Modelled from the spec: insertion of index `i` into an already sorted
list of indices, strictly before the first index with a strictly greater
value, hence after all indices of equal value (stability). -/
def insertIdxBy (lt : Nat → Nat → Bool) (v : List Nat) (i : Nat) : List Nat → List Nat
  | [] => [i]
  | j :: js => if lt (v.getD i 0) (v.getD j 0) then i :: j :: js else j :: insertIdxBy lt v i js

/-- Modelled from the spec: `utils::stable_sort_indices` — the permutation of
`0, ..., v.length - 1` that stably sorts the value list `v` under the strict
comparator `lt`. -/
def stable_sort_indices (lt : Nat → Nat → Bool) (v : List Nat) : List Nat :=
  (List.range v.length).foldl (fun acc i => insertIdxBy lt v i acc) []

/-- The ring rewrite of `ladderize`, manipulation.cpp lines 689-707: chain
the node's child links in the given order behind the primary link `p` and
close the ring back at `p`. -/
def relinkChain (p : Nat) : Nat → List Nat → Tree → Tree
  | cur, [], t => t.upd_link cur (fun l => { l with next_ := p })
  | cur, c :: cs, t => relinkChain p c cs (t.upd_link cur (fun l => { l with next_ := c }))

/-- The per-node body of the `ladderize` loop, manipulation.cpp lines
654-714.  `szs` gives the precomputed subtree size for every node index. -/
def ladderizeNode (t : Tree) (szs : Nat → Nat) (ord : LadderizeOrder) (nid : Nat) : Tree :=
  if t.is_leaf nid then t
  else
    let p := (t.node_of nid).link_
    let child_links := ringFromAux t p t.links.length (t.link_of p).next_
    let child_sizes :=
      child_links.map (fun c => szs (t.node_of (t.link_of (t.link_of c).outer_).node_).index)
    let lt : Nat → Nat → Bool := match ord with
      | .kSmallFirst => fun a b => decide (a < b)
      | .kLargeFirst => fun a b => decide (b < a)
    let child_order := stable_sort_indices lt child_sizes
    relinkChain p p (child_order.map (fun oi => child_links.getD oi 0)) t

/-- Embedding of `ladderize`, manipulation.cpp lines 647-715. -/
def ladderize (t : Tree) (ord : LadderizeOrder) : Tree :=
  let szs := fun i => sub_sizes t (t.node_at i).id
  (t.nodes.map TreeNode.id).foldl (fun acc nid => ladderizeNode acc szs ord nid) t

/-- One step of the reroot walk: swap the primary/secondary links of the
edge of `c` and redirect the node at the outer end of `c` so that its primary
link is that outer link (the two mutations of one iteration of the `while`
loop of `reroot`, manipulation.cpp lines 598-624). -/
def flipStep (u : Tree) (c : Nat) : Tree :=
  let e := (u.link_of c).edge_
  let lp := (u.edge_of e).link_p
  let ls := (u.edge_of e).link_s
  let u1 := u.upd_edge e (fun ed => { ed with link_p := ls, link_s := lp })
  u1.upd_node (u1.link_of (u1.link_of c).outer_).node_
    (fun n => { n with link_ := (u1.link_of c).outer_ })

/-- The link the reroot walk moves to after processing `c`: the primary link
of the node at the outer end of `c`, captured before that node is
redirected. -/
def toRoot (u : Tree) (c : Nat) : Nat :=
  let e := (u.link_of c).edge_
  let lp := (u.edge_of e).link_p
  let ls := (u.edge_of e).link_s
  let u1 := u.upd_edge e (fun ed => { ed with link_p := ls, link_s := lp })
  (u1.node_of (u1.link_of (u1.link_of c).outer_).node_).link_

/-- Execution certificate for the reroot walk: starting at the link `c`, the
loop processes exactly the links of the list and then stops because the next
link sits at the old root node. -/
def trace (r0 : Nat) : Tree → Nat → List Nat → Bool
  | u, c, [] => (u.link_of c).node_ == r0
  | u, c, q :: qs =>
    (c == q) && (!((u.link_of c).node_ == r0)) && trace r0 (flipStep u c) (toRoot u c) qs

/-- Round trip of the two reroot walks along a path: process the links of
`ps` in order, then process their outer partners in the reverse order. -/
def unwind (u : Tree) : List Nat → Tree
  | [] => u
  | c :: rest => flipStep (unwind (flipStep u c) rest) ((u.link_of c).outer_)

/-- The tree state right before the reroot walk starts: the stored root link
index is moved to the target link and the target node's primary link becomes
the target link (manipulation.cpp lines 593-595). -/
def rerootPre (t : Tree) (at_link : Nat) : Tree :=
  ({ t with root_link_ := (t.link_of at_link).index }).upd_node
    (t.link_of at_link).node_
    (fun n => { n with link_ := (t.link_at (t.link_of at_link).index).id })

/-- The starting link of the reroot walk: the primary link of the target
node, captured before the tree is touched (manipulation.cpp line 590). -/
def rerootCur (t : Tree) (at_link : Nat) : Nat :=
  (t.node_of (t.link_at (t.link_of at_link).index).node_).link_

/-- Redirect the node owning the link `c` so that its primary link is `c`. -/
def restorePrimary (u : Tree) (c : Nat) : Tree :=
  u.upd_node (u.link_of c).node_ (fun n => { n with link_ := c })

/-- The last element of a list of naturals, or the default. -/
def lastOr (d : Nat) : List Nat → Nat
  | [] => d
  | [a] => a
  | _ :: b :: rest => lastOr d (b :: rest)

/-- Per-step well-formedness of the walk path: the outer link of each
processed link `c` closes back (`outer (outer c) = c`) on the same edge, the
edge exists and its primary/secondary links are `outer c` and `c`, and —
when further steps follow — the outer end of `c` is the node of the next
processed link, that node differs from the node redirected by the very last
step of the return walk, and its stored primary link is the next processed
link.  Each level speaks about the tree as mutated so far. -/
def chainB (u : Tree) : List Nat → Bool
  | [] => true
  | c :: rest =>
    let p := (u.link_of c).outer_
    let e := (u.link_of c).edge_
    ((u.link_of p).outer_ == c) &&
    ((u.link_of p).edge_ == e) &&
    u.has_edge e &&
    (u.edges.all (fun x => !(x.id == e) || ((x.link_p == p) && (x.link_s == c)))) &&
    (match rest with
     | [] => true
     | c1 :: _ =>
       ((u.link_of p).node_ == (u.link_of c1).node_) &&
       !((u.link_of c1).node_ == (u.link_of ((u.link_of (lastOr 0 rest)).outer_)).node_) &&
       (u.nodes.all (fun x => !(x.id == (u.link_of c1).node_) || (x.link_ == c1)))) &&
    chainB (flipStep u c) rest

/-- A concrete cherry tree: root `R` (node 101) with the two leaf children
`X` (node 102) and `Y` (node 103); edges 201 = R-X and 202 = R-Y; links 1, 2
around `R` and 3 at `X`, 4 at `Y`; the root link is link 1. -/
def cherryT : Tree :=
  { links :=
      [ { id := 1, index := 0, next_ := 2, outer_ := 3, node_ := 101, edge_ := 201 },
        { id := 2, index := 1, next_ := 1, outer_ := 4, node_ := 101, edge_ := 202 },
        { id := 3, index := 2, next_ := 3, outer_ := 1, node_ := 102, edge_ := 201 },
        { id := 4, index := 3, next_ := 4, outer_ := 2, node_ := 103, edge_ := 202 } ],
    nodes :=
      [ { id := 101, index := 0, link_ := 1, data_ := some 10 },
        { id := 102, index := 1, link_ := 3, data_ := some 10 },
        { id := 103, index := 2, link_ := 4, data_ := some 10 } ],
    edges :=
      [ { id := 201, index := 0, link_p := 1, link_s := 3, data_ := some 20 },
        { id := 202, index := 1, link_p := 2, link_s := 4, data_ := some 20 } ],
    root_link_ := 0,
    next_id := 500 }

/-- A concrete path tree: root `R` (node 101, degree 1) - `A` (node 102,
degree 2) - `B` (node 103, degree 1); edges 201 = R-A, 202 = A-B; links 1 at
`R`, 2 and 3 around `A`, 4 at `B`; the root link is link 1. -/
def pathT : Tree :=
  { links :=
      [ { id := 1, index := 0, next_ := 1, outer_ := 2, node_ := 101, edge_ := 201 },
        { id := 2, index := 1, next_ := 3, outer_ := 1, node_ := 102, edge_ := 201 },
        { id := 3, index := 2, next_ := 2, outer_ := 4, node_ := 102, edge_ := 202 },
        { id := 4, index := 3, next_ := 4, outer_ := 3, node_ := 103, edge_ := 202 } ],
    nodes :=
      [ { id := 101, index := 0, link_ := 1, data_ := some 10 },
        { id := 102, index := 1, link_ := 2, data_ := some 10 },
        { id := 103, index := 2, link_ := 4, data_ := some 10 } ],
    edges :=
      [ { id := 201, index := 0, link_p := 1, link_s := 2, data_ := some 20 },
        { id := 202, index := 1, link_p := 3, link_s := 4, data_ := some 20 } ],
    root_link_ := 0,
    next_id := 500 }

/-- The concrete tree of the spec's scenario, `((B,(D,E)C)A,F,(H,I)G)R`:
10 nodes (R = 101, A = 102, B = 103, C = 104, D = 105, E = 106, F = 107,
G = 108, H = 109, I = 110), 9 edges (201 = R-A, 202 = A-B, 203 = A-C,
204 = C-D, 205 = C-E, 206 = R-F, 207 = R-G, 208 = G-H, 209 = G-I) and 18
links (link ids 1-18, positions ids minus one); the root link is link 1. -/
def specT : Tree :=
  { links :=
      [ { id := 1, index := 0, next_ := 2, outer_ := 4, node_ := 101, edge_ := 201 },
        { id := 2, index := 1, next_ := 3, outer_ := 13, node_ := 101, edge_ := 206 },
        { id := 3, index := 2, next_ := 1, outer_ := 14, node_ := 101, edge_ := 207 },
        { id := 4, index := 3, next_ := 5, outer_ := 1, node_ := 102, edge_ := 201 },
        { id := 5, index := 4, next_ := 6, outer_ := 7, node_ := 102, edge_ := 202 },
        { id := 6, index := 5, next_ := 4, outer_ := 8, node_ := 102, edge_ := 203 },
        { id := 7, index := 6, next_ := 7, outer_ := 5, node_ := 103, edge_ := 202 },
        { id := 8, index := 7, next_ := 9, outer_ := 6, node_ := 104, edge_ := 203 },
        { id := 9, index := 8, next_ := 10, outer_ := 11, node_ := 104, edge_ := 204 },
        { id := 10, index := 9, next_ := 8, outer_ := 12, node_ := 104, edge_ := 205 },
        { id := 11, index := 10, next_ := 11, outer_ := 9, node_ := 105, edge_ := 204 },
        { id := 12, index := 11, next_ := 12, outer_ := 10, node_ := 106, edge_ := 205 },
        { id := 13, index := 12, next_ := 13, outer_ := 2, node_ := 107, edge_ := 206 },
        { id := 14, index := 13, next_ := 15, outer_ := 3, node_ := 108, edge_ := 207 },
        { id := 15, index := 14, next_ := 16, outer_ := 17, node_ := 108, edge_ := 208 },
        { id := 16, index := 15, next_ := 14, outer_ := 18, node_ := 108, edge_ := 209 },
        { id := 17, index := 16, next_ := 17, outer_ := 15, node_ := 109, edge_ := 208 },
        { id := 18, index := 17, next_ := 18, outer_ := 16, node_ := 110, edge_ := 209 } ],
    nodes :=
      [ { id := 101, index := 0, link_ := 1, data_ := some 10 },
        { id := 102, index := 1, link_ := 4, data_ := some 10 },
        { id := 103, index := 2, link_ := 7, data_ := some 10 },
        { id := 104, index := 3, link_ := 8, data_ := some 10 },
        { id := 105, index := 4, link_ := 11, data_ := some 10 },
        { id := 106, index := 5, link_ := 12, data_ := some 10 },
        { id := 107, index := 6, link_ := 13, data_ := some 10 },
        { id := 108, index := 7, link_ := 14, data_ := some 10 },
        { id := 109, index := 8, link_ := 17, data_ := some 10 },
        { id := 110, index := 9, link_ := 18, data_ := some 10 } ],
    edges :=
      [ { id := 201, index := 0, link_p := 1, link_s := 4, data_ := some 20 },
        { id := 202, index := 1, link_p := 5, link_s := 7, data_ := some 20 },
        { id := 203, index := 2, link_p := 6, link_s := 8, data_ := some 20 },
        { id := 204, index := 3, link_p := 9, link_s := 11, data_ := some 20 },
        { id := 205, index := 4, link_p := 10, link_s := 12, data_ := some 20 },
        { id := 206, index := 5, link_p := 2, link_s := 13, data_ := some 20 },
        { id := 207, index := 6, link_p := 3, link_s := 14, data_ := some 20 },
        { id := 208, index := 7, link_p := 15, link_s := 17, data_ := some 20 },
        { id := 209, index := 8, link_p := 16, link_s := 18, data_ := some 20 } ],
    root_link_ := 0,
    next_id := 500 }

/-- The cherry tree with all payloads absent. -/
def cherryND : Tree :=
  { cherryT with
    nodes := cherryT.nodes.map (fun n => { n with data_ := none }),
    edges := cherryT.edges.map (fun e => { e with data_ := none }) }

/-- The index invariant of the arena: the element at position `i` of every
collection has stored index `i`. -/
def TreeIndexed (t : Tree) : Prop :=
  (∀ i, i < t.link_count → (t.link_at i).index = i) ∧
  (∀ i, i < t.node_count → (t.node_at i).index = i) ∧
  (∀ i, i < t.edge_count → (t.edge_at i).index = i)

instance (t : Tree) : Decidable (TreeIndexed t) := by
  unfold TreeIndexed
  infer_instance

/-- The comparator chosen by `ladderize` for the given order. -/
def ltOf : LadderizeOrder → Nat → Nat → Bool
  | .kSmallFirst => fun a b => decide (a < b)
  | .kLargeFirst => fun a b => decide (b < a)

/-- The precomputed subtree-size table of `ladderize` (one `sub_sizes` value
per node position). -/
def szsOf (t : Tree) : Nat → Nat := fun i => sub_sizes t (t.node_at i).id

/-- The subtree size `ladderize` associates with a ring link: the size table
entry of the node at the link's outer end. -/
def szAt (t : Tree) (c : Nat) : Nat :=
  szsOf t ((t.node_of (t.link_of (t.link_of c).outer_).node_).index)

/-- The ring of the node `nid`, read in the tree `f` but anchored at the
node's primary link as stored in `t`: the links following the primary link
in ring order, the primary link itself excluded. -/
def ringOf (f t : Tree) (nid : Nat) : List Nat :=
  ringFromAux f (t.node_of nid).link_ t.links.length
    ((f.link_of (t.node_of nid).link_).next_)

/-- What C6 claims of one internal node after `ladderize`: in the final tree
`f` the node's ring (after the root-facing primary link) is precisely the
stable sort of its original ring by the outer-end subtree sizes, hence the
sizes along the new ring are ordered (non-decreasing for small-first,
non-increasing for large-first), and for every size value the links of that
size appear in their original relative order. -/
def ladderNodeProp (t : Tree) (ord : LadderizeOrder) (f : Tree) (nid : Nat) : Prop :=
  ringOf f t nid =
    (stable_sort_indices (ltOf ord) ((ringOf t t nid).map (szAt t))).map
      (fun oi => (ringOf t t nid).getD oi 0) ∧
  ((ringOf f t nid).map (szAt t)).Pairwise (fun a b => ltOf ord b a = false) ∧
  (∀ s, (ringOf f t nid).filter (fun c => szAt t c == s) =
    (ringOf t t nid).filter (fun c => szAt t c == s))

/-- Execution certificate for the `ladderize` loop: for every processed node
the leaf test agrees with the original tree, an internal node's ring and
size list agree with the original tree, the rewritten ring is a duplicate-
free set of existing links avoiding the primary link, shorter than the link
arena, and disjoint from the rings rewritten before (so later steps cannot
disturb them). -/
def ladderCert (t0 : Tree) (ord : LadderizeOrder) : List Nat → List Nat → Tree → Bool
  | [], _, _ => true
  | nid :: ids, prot, u =>
    ((u.is_leaf nid) == (t0.is_leaf nid)) &&
    (if u.is_leaf nid then ladderCert t0 ord ids prot u
     else
       ((u.node_of nid).link_ == (t0.node_of nid).link_) &&
       (ringFromAux u (u.node_of nid).link_ u.links.length
           ((u.link_of (u.node_of nid).link_).next_) == ringOf t0 t0 nid) &&
       ((ringOf t0 t0 nid).map
           (fun c => szsOf t0 ((u.node_of (u.link_of (u.link_of c).outer_).node_).index)) ==
         (ringOf t0 t0 nid).map (szAt t0)) &&
       u.has_link (u.node_of nid).link_ &&
       (let newcs := (stable_sort_indices (ltOf ord)
           ((ringOf t0 t0 nid).map (szAt t0))).map
           (fun oi => (ringOf t0 t0 nid).getD oi 0)
        decide (¬ (t0.node_of nid).link_ ∈ newcs) &&
        decide newcs.Nodup &&
        (newcs.all (fun c => u.has_link c)) &&
        decide (newcs.length < t0.links.length) &&
        (((t0.node_of nid).link_ :: newcs).all (fun x => decide (¬ x ∈ prot))) &&
        ladderCert t0 ord ids (prot ++ (t0.node_of nid).link_ :: newcs)
          (ladderizeNode u (szsOf t0) ord nid)))

theorem find?_append_of_isSome {α : Type} {p : α → Bool} {xs ys : List α}
    (h : (xs.find? p).isSome) : (xs ++ ys).find? p = xs.find? p := by
  rw [List.find?_append]
  cases hf : xs.find? p with
  | none => rw [hf] at h; simp at h
  | some x => simp

theorem link_of_id (t : Tree) (w : Nat) (h : t.has_link w = true) : (t.link_of w).id = w := by
  unfold Tree.has_link at h
  unfold Tree.link_of
  cases hf : t.links.find? (fun l => l.id == w) with
  | none => rw [hf] at h; simp at h
  | some x =>
    have hx := List.find?_some hf
    simp at hx
    simp [hx]

theorem node_of_id (t : Tree) (w : Nat) (h : t.has_node w = true) : (t.node_of w).id = w := by
  unfold Tree.has_node at h
  unfold Tree.node_of
  cases hf : t.nodes.find? (fun n => n.id == w) with
  | none => rw [hf] at h; simp at h
  | some x =>
    have hx := List.find?_some hf
    simp at hx
    simp [hx]

theorem edge_of_id (t : Tree) (w : Nat) (h : t.has_edge w = true) : (t.edge_of w).id = w := by
  unfold Tree.has_edge at h
  unfold Tree.edge_of
  cases hf : t.edges.find? (fun e => e.id == w) with
  | none => rw [hf] at h; simp at h
  | some x =>
    have hx := List.find?_some hf
    simp at hx
    simp [hx]

theorem link_of_upd_link (t : Tree) (v w : Nat) (f : TreeLink → TreeLink)
    (hid : ∀ l, (f l).id = l.id) :
    (t.upd_link v f).link_of w =
      if t.has_link w = true ∧ w = v then f (t.link_of w) else t.link_of w := by
  unfold Tree.upd_link Tree.link_of Tree.has_link
  show ((t.links.map fun l => if l.id == v then f l else l).find?
      (fun l => l.id == w)).getD default = _
  rw [List.find?_map]
  have hcomp : ((fun l : TreeLink => l.id == w) ∘ fun l => if l.id == v then f l else l)
      = fun l : TreeLink => l.id == w := by
    funext l
    by_cases h : (l.id == v) = true <;> simp [Function.comp, h, hid]
  rw [hcomp]
  cases hf : t.links.find? (fun l => l.id == w) with
  | none => simp
  | some x =>
    have hx := List.find?_some hf
    simp at hx
    by_cases hwv : w = v
    · subst hwv; simp [hx]
    · simp [hx, hwv]

theorem node_of_upd_node (t : Tree) (v w : Nat) (f : TreeNode → TreeNode)
    (hid : ∀ n, (f n).id = n.id) :
    (t.upd_node v f).node_of w =
      if t.has_node w = true ∧ w = v then f (t.node_of w) else t.node_of w := by
  unfold Tree.upd_node Tree.node_of Tree.has_node
  show ((t.nodes.map fun n => if n.id == v then f n else n).find?
      (fun n => n.id == w)).getD default = _
  rw [List.find?_map]
  have hcomp : ((fun n : TreeNode => n.id == w) ∘ fun n => if n.id == v then f n else n)
      = fun n : TreeNode => n.id == w := by
    funext n
    by_cases h : (n.id == v) = true <;> simp [Function.comp, h, hid]
  rw [hcomp]
  cases hf : t.nodes.find? (fun n => n.id == w) with
  | none => simp
  | some x =>
    have hx := List.find?_some hf
    simp at hx
    by_cases hwv : w = v
    · subst hwv; simp [hx]
    · simp [hx, hwv]

theorem edge_of_upd_edge (t : Tree) (v w : Nat) (f : TreeEdge → TreeEdge)
    (hid : ∀ e, (f e).id = e.id) :
    (t.upd_edge v f).edge_of w =
      if t.has_edge w = true ∧ w = v then f (t.edge_of w) else t.edge_of w := by
  unfold Tree.upd_edge Tree.edge_of Tree.has_edge
  show ((t.edges.map fun e => if e.id == v then f e else e).find?
      (fun e => e.id == w)).getD default = _
  rw [List.find?_map]
  have hcomp : ((fun e : TreeEdge => e.id == w) ∘ fun e => if e.id == v then f e else e)
      = fun e : TreeEdge => e.id == w := by
    funext e
    by_cases h : (e.id == v) = true <;> simp [Function.comp, h, hid]
  rw [hcomp]
  cases hf : t.edges.find? (fun e => e.id == w) with
  | none => simp
  | some x =>
    have hx := List.find?_some hf
    simp at hx
    by_cases hwv : w = v
    · subst hwv; simp [hx]
    · simp [hx, hwv]

theorem upd_link_links (t : Tree) (v : Nat) (f : TreeLink → TreeLink) :
    (t.upd_link v f).links = t.links.map (fun l => if l.id == v then f l else l) := rfl

theorem upd_link_nodes (t : Tree) (v : Nat) (f : TreeLink → TreeLink) :
    (t.upd_link v f).nodes = t.nodes := rfl

theorem upd_link_edges (t : Tree) (v : Nat) (f : TreeLink → TreeLink) :
    (t.upd_link v f).edges = t.edges := rfl

theorem upd_link_root (t : Tree) (v : Nat) (f : TreeLink → TreeLink) :
    (t.upd_link v f).root_link_ = t.root_link_ := rfl

theorem upd_link_next_id (t : Tree) (v : Nat) (f : TreeLink → TreeLink) :
    (t.upd_link v f).next_id = t.next_id := rfl

theorem upd_node_nodes (t : Tree) (v : Nat) (f : TreeNode → TreeNode) :
    (t.upd_node v f).nodes = t.nodes.map (fun n => if n.id == v then f n else n) := rfl

theorem upd_node_links (t : Tree) (v : Nat) (f : TreeNode → TreeNode) :
    (t.upd_node v f).links = t.links := rfl

theorem upd_node_edges (t : Tree) (v : Nat) (f : TreeNode → TreeNode) :
    (t.upd_node v f).edges = t.edges := rfl

theorem upd_node_root (t : Tree) (v : Nat) (f : TreeNode → TreeNode) :
    (t.upd_node v f).root_link_ = t.root_link_ := rfl

theorem upd_node_next_id (t : Tree) (v : Nat) (f : TreeNode → TreeNode) :
    (t.upd_node v f).next_id = t.next_id := rfl

theorem upd_edge_edges (t : Tree) (v : Nat) (f : TreeEdge → TreeEdge) :
    (t.upd_edge v f).edges = t.edges.map (fun e => if e.id == v then f e else e) := rfl

theorem upd_edge_links (t : Tree) (v : Nat) (f : TreeEdge → TreeEdge) :
    (t.upd_edge v f).links = t.links := rfl

theorem upd_edge_nodes (t : Tree) (v : Nat) (f : TreeEdge → TreeEdge) :
    (t.upd_edge v f).nodes = t.nodes := rfl

theorem upd_edge_root (t : Tree) (v : Nat) (f : TreeEdge → TreeEdge) :
    (t.upd_edge v f).root_link_ = t.root_link_ := rfl

theorem upd_edge_next_id (t : Tree) (v : Nat) (f : TreeEdge → TreeEdge) :
    (t.upd_edge v f).next_id = t.next_id := rfl

theorem link_of_upd_node (t : Tree) (v w : Nat) (f : TreeNode → TreeNode) :
    (t.upd_node v f).link_of w = t.link_of w := rfl

theorem link_of_upd_edge (t : Tree) (v w : Nat) (f : TreeEdge → TreeEdge) :
    (t.upd_edge v f).link_of w = t.link_of w := rfl

theorem node_of_upd_link (t : Tree) (v w : Nat) (f : TreeLink → TreeLink) :
    (t.upd_link v f).node_of w = t.node_of w := rfl

theorem node_of_upd_edge (t : Tree) (v w : Nat) (f : TreeEdge → TreeEdge) :
    (t.upd_edge v f).node_of w = t.node_of w := rfl

theorem edge_of_upd_link (t : Tree) (v w : Nat) (f : TreeLink → TreeLink) :
    (t.upd_link v f).edge_of w = t.edge_of w := rfl

theorem edge_of_upd_node (t : Tree) (v w : Nat) (f : TreeNode → TreeNode) :
    (t.upd_node v f).edge_of w = t.edge_of w := rfl

theorem has_link_upd_node (t : Tree) (v w : Nat) (f : TreeNode → TreeNode) :
    (t.upd_node v f).has_link w = t.has_link w := rfl

theorem has_link_upd_edge (t : Tree) (v w : Nat) (f : TreeEdge → TreeEdge) :
    (t.upd_edge v f).has_link w = t.has_link w := rfl

theorem has_node_upd_link (t : Tree) (v w : Nat) (f : TreeLink → TreeLink) :
    (t.upd_link v f).has_node w = t.has_node w := rfl

theorem has_node_upd_edge (t : Tree) (v w : Nat) (f : TreeEdge → TreeEdge) :
    (t.upd_edge v f).has_node w = t.has_node w := rfl

theorem has_edge_upd_link (t : Tree) (v w : Nat) (f : TreeLink → TreeLink) :
    (t.upd_link v f).has_edge w = t.has_edge w := rfl

theorem has_edge_upd_node (t : Tree) (v w : Nat) (f : TreeNode → TreeNode) :
    (t.upd_node v f).has_edge w = t.has_edge w := rfl

theorem has_link_upd_link (t : Tree) (v w : Nat) (f : TreeLink → TreeLink)
    (hid : ∀ l, (f l).id = l.id) :
    (t.upd_link v f).has_link w = t.has_link w := by
  unfold Tree.upd_link Tree.has_link
  show ((t.links.map fun l => if l.id == v then f l else l).find? (fun l => l.id == w)).isSome
    = (t.links.find? (fun l => l.id == w)).isSome
  rw [List.find?_map]
  have hcomp : ((fun l : TreeLink => l.id == w) ∘ fun l => if l.id == v then f l else l)
      = fun l : TreeLink => l.id == w := by
    funext l
    by_cases h : (l.id == v) = true <;> simp [Function.comp, h, hid]
  rw [hcomp]
  cases t.links.find? (fun l => l.id == w) <;> rfl

theorem has_node_upd_node (t : Tree) (v w : Nat) (f : TreeNode → TreeNode)
    (hid : ∀ n, (f n).id = n.id) :
    (t.upd_node v f).has_node w = t.has_node w := by
  unfold Tree.upd_node Tree.has_node
  show ((t.nodes.map fun n => if n.id == v then f n else n).find? (fun n => n.id == w)).isSome
    = (t.nodes.find? (fun n => n.id == w)).isSome
  rw [List.find?_map]
  have hcomp : ((fun n : TreeNode => n.id == w) ∘ fun n => if n.id == v then f n else n)
      = fun n : TreeNode => n.id == w := by
    funext n
    by_cases h : (n.id == v) = true <;> simp [Function.comp, h, hid]
  rw [hcomp]
  cases t.nodes.find? (fun n => n.id == w) <;> rfl

theorem has_edge_upd_edge (t : Tree) (v w : Nat) (f : TreeEdge → TreeEdge)
    (hid : ∀ x, (f x).id = x.id) :
    (t.upd_edge v f).has_edge w = t.has_edge w := by
  unfold Tree.upd_edge Tree.has_edge
  show ((t.edges.map fun x => if x.id == v then f x else x).find? (fun x => x.id == w)).isSome
    = (t.edges.find? (fun x => x.id == w)).isSome
  rw [List.find?_map]
  have hcomp : ((fun x : TreeEdge => x.id == w) ∘ fun x => if x.id == v then f x else x)
      = fun x : TreeEdge => x.id == w := by
    funext x
    by_cases h : (x.id == v) = true <;> simp [Function.comp, h, hid]
  rw [hcomp]
  cases t.edges.find? (fun x => x.id == w) <;> rfl

theorem reindexFromAux_length {α : Type} (s : Nat → α → α) (st : Nat) :
    ∀ (i : Nat) (xs : List α), (reindexFromAux s st i xs).length = xs.length
  | _, [] => rfl
  | i, x :: xs => by
    simp only [reindexFromAux, List.length_cons, reindexFromAux_length s st (i + 1) xs]

theorem reindexFrom_length {α : Type} (s : Nat → α → α) (st : Nat) (xs : List α) :
    (reindexFrom s st xs).length = xs.length := reindexFromAux_length s st 0 xs

theorem reindexFromAux_getD {α : Type} (s : Nat → α → α) (st : Nat) (d : α) :
    ∀ (i : Nat) (xs : List α) (j : Nat), j < xs.length →
      (reindexFromAux s st i xs).getD j d =
        if st ≤ i + j then s (i + j) (xs.getD j d) else xs.getD j d
  | _, [], j, hj => by simp at hj
  | i, x :: xs, 0, _ => by simp [reindexFromAux]
  | i, x :: xs, j + 1, hj => by
    have ih := reindexFromAux_getD s st d (i + 1) xs j (by simpa using hj)
    simp only [reindexFromAux, List.getD_cons_succ, ih]
    have : i + 1 + j = i + (j + 1) := by omega
    rw [this]

theorem reindexFrom_getD {α : Type} (s : Nat → α → α) (st : Nat) (d : α)
    (xs : List α) (j : Nat) (hj : j < xs.length) :
    (reindexFrom s st xs).getD j d =
      if st ≤ j then s j (xs.getD j d) else xs.getD j d := by
  have h := reindexFromAux_getD s st d 0 xs j hj
  simpa using h

theorem getD_eraseIdx {α : Type} (d : α) :
    ∀ (xs : List α) (p j : Nat), p < xs.length →
      (xs.eraseIdx p).getD j d = if j < p then xs.getD j d else xs.getD (j + 1) d
  | [], p, j, hp => by simp at hp
  | x :: xs, 0, j, _ => by simp [List.eraseIdx]
  | x :: xs, p + 1, 0, hp => by simp [List.eraseIdx]
  | x :: xs, p + 1, j + 1, hp => by
    have ih := getD_eraseIdx d xs p j (by simpa using hp)
    simp only [List.eraseIdx, List.getD_cons_succ, ih]
    by_cases h : j < p
    · rw [if_pos h, if_pos (by omega)]
    · rw [if_neg h, if_neg (by omega)]

theorem getD_map_of_lt {α β : Type} (f : α → β) (d : α) (d2 : β) :
    ∀ (xs : List α) (j : Nat), j < xs.length → (xs.map f).getD j d2 = f (xs.getD j d)
  | [], j, hj => by simp at hj
  | x :: xs, 0, _ => by simp
  | x :: xs, j + 1, hj => by
    simp only [List.map_cons, List.getD_cons_succ]
    exact getD_map_of_lt f d d2 xs j (by simpa using hj)

theorem link_of_set_edges (t : Tree) (E : List TreeEdge) (w : Nat) :
    Tree.link_of { t with edges := E } w = t.link_of w := rfl

theorem link_of_set_nodes (t : Tree) (N : List TreeNode) (w : Nat) :
    Tree.link_of { t with nodes := N } w = t.link_of w := rfl

theorem node_of_set_edges (t : Tree) (E : List TreeEdge) (w : Nat) :
    Tree.node_of { t with edges := E } w = t.node_of w := rfl

theorem node_of_set_links (t : Tree) (L : List TreeLink) (w : Nat) :
    Tree.node_of { t with links := L } w = t.node_of w := rfl

theorem edge_of_set_links (t : Tree) (L : List TreeLink) (w : Nat) :
    Tree.edge_of { t with links := L } w = t.edge_of w := rfl

theorem edge_of_set_nodes (t : Tree) (N : List TreeNode) (w : Nat) :
    Tree.edge_of { t with nodes := N } w = t.edge_of w := rfl

theorem link_of_mk_of_links (t : Tree) (N : List TreeNode) (E : List TreeEdge)
    (rl ni w : Nat) : Tree.link_of (Tree.mk t.links N E rl ni) w = t.link_of w := rfl

theorem node_of_mk_of_nodes (t : Tree) (L : List TreeLink) (E : List TreeEdge)
    (rl ni w : Nat) : Tree.node_of (Tree.mk L t.nodes E rl ni) w = t.node_of w := rfl

theorem edge_of_mk_of_edges (t : Tree) (L : List TreeLink) (N : List TreeNode)
    (rl ni w : Nat) : Tree.edge_of (Tree.mk L N t.edges rl ni) w = t.edge_of w := rfl

theorem findPred_congr_links (t t' : Tree) (h : t.links = t'.links) (a : Nat) :
    ∀ (fuel c : Nat), findPred t a fuel c = findPred t' a fuel c
  | 0, _ => rfl
  | fuel + 1, c => by
    have hl : t.link_of c = t'.link_of c := by unfold Tree.link_of; rw [h]
    simp only [findPred, hl]
    split
    · rfl
    · exact findPred_congr_links t t' h a fuel (t'.link_of c).next_

theorem findPred_set_edges (t : Tree) (E : List TreeEdge) (a fuel c : Nat) :
    findPred { t with edges := E } a fuel c = findPred t a fuel c :=
  findPred_congr_links { t with edges := E } t rfl a fuel c

theorem link_of_upd_next_index (t : Tree) (v nx w : Nat) :
    ((t.upd_link v (fun l => { l with next_ := nx })).link_of w).index =
      (t.link_of w).index := by
  rw [link_of_upd_link t v w (fun l => { l with next_ := nx }) (fun l => rfl)]
  split <;> rfl

theorem link_of_upd_next_outer (t : Tree) (v nx w : Nat) :
    ((t.upd_link v (fun l => { l with next_ := nx })).link_of w).outer_ =
      (t.link_of w).outer_ := by
  rw [link_of_upd_link t v w (fun l => { l with next_ := nx }) (fun l => rfl)]
  split <;> rfl

theorem link_of_upd_link_hit (t : Tree) (v w : Nat) (f : TreeLink → TreeLink)
    (hid : ∀ l, (f l).id = l.id) (h : t.has_link w = true) (hv : w = v) :
    (t.upd_link v f).link_of w = f (t.link_of w) := by
  rw [link_of_upd_link t v w f hid, if_pos ⟨h, hv⟩]

theorem link_of_upd_link_miss (t : Tree) (v w : Nat) (f : TreeLink → TreeLink)
    (hid : ∀ l, (f l).id = l.id) (hv : w ≠ v) :
    (t.upd_link v f).link_of w = t.link_of w := by
  rw [link_of_upd_link t v w f hid, if_neg (fun hc => hv hc.2)]

theorem node_of_upd_node_hit (t : Tree) (v w : Nat) (f : TreeNode → TreeNode)
    (hid : ∀ n, (f n).id = n.id) (h : t.has_node w = true) (hv : w = v) :
    (t.upd_node v f).node_of w = f (t.node_of w) := by
  rw [node_of_upd_node t v w f hid, if_pos ⟨h, hv⟩]

theorem node_of_upd_node_miss (t : Tree) (v w : Nat) (f : TreeNode → TreeNode)
    (hid : ∀ n, (f n).id = n.id) (hv : w ≠ v) :
    (t.upd_node v f).node_of w = t.node_of w := by
  rw [node_of_upd_node t v w f hid, if_neg (fun hc => hv hc.2)]

theorem edge_of_upd_edge_hit (t : Tree) (v w : Nat) (f : TreeEdge → TreeEdge)
    (hid : ∀ x, (f x).id = x.id) (h : t.has_edge w = true) (hv : w = v) :
    (t.upd_edge v f).edge_of w = f (t.edge_of w) := by
  rw [edge_of_upd_edge t v w f hid, if_pos ⟨h, hv⟩]

theorem edge_of_upd_edge_miss (t : Tree) (v w : Nat) (f : TreeEdge → TreeEdge)
    (hid : ∀ x, (f x).id = x.id) (hv : w ≠ v) :
    (t.upd_edge v f).edge_of w = t.edge_of w := by
  rw [edge_of_upd_edge t v w f hid, if_neg (fun hc => hv hc.2)]

theorem insertNat_length (a : Nat) : ∀ (xs : List Nat), (insertNat a xs).length = xs.length + 1
  | [] => rfl
  | b :: bs => by
    simp only [insertNat]
    split
    · simp
    · simp [insertNat_length a bs]

theorem sortNat_length : ∀ (xs : List Nat), (sortNat xs).length = xs.length
  | [] => rfl
  | a :: as => by simp [sortNat, insertNat_length, sortNat_length as]

theorem sortedLen : ∀ (del : List Nat) (a b : Nat), del.Pairwise (· < ·) →
    (∀ e ∈ del, a ≤ e ∧ e < b) → del.length ≤ b - a
  | [], _, _, _, _ => Nat.zero_le _
  | d :: ds, a, b, hp, hb => by
    have hds := sortedLen ds (d + 1) b (List.Pairwise.sublist (List.sublist_cons_self d ds) hp)
      (fun e he => ⟨(List.pairwise_cons.mp hp).1 e he, (hb e (List.mem_cons_of_mem d he)).2⟩)
    have hd := hb d (List.mem_cons_self d ds)
    simp only [List.length_cons]
    omega

theorem sortedCountP : ∀ (del : List Nat) (a b : Nat), del.Pairwise (· < ·) →
    (∀ e ∈ del, a ≤ e) → del.countP (fun e => decide (e < b)) ≤ b - a
  | [], _, _, _, _ => by rw [List.countP_nil]; exact Nat.zero_le _
  | d :: ds, a, b, hp, hb => by
    rw [List.countP_cons]
    by_cases hd : d < b
    · have hds := sortedCountP ds (d + 1) b
        (List.Pairwise.sublist (List.sublist_cons_self d ds) hp)
        (fun e he => (List.pairwise_cons.mp hp).1 e he)
      have had : a ≤ d := hb d (List.mem_cons_self d ds)
      have hif : (if (fun e => decide (e < b)) d = true then 1 else 0) = 1 := by
        simp [hd]
      rw [hif]
      omega
    · have hzero : ds.countP (fun e => decide (e < b)) = 0 := by
        rw [List.countP_eq_zero]
        intro e he
        have hde : d < e := (List.pairwise_cons.mp hp).1 e he
        simp only [decide_eq_true_eq]
        omega
      have hif : (if (fun e => decide (e < b)) d = true then 1 else 0) = 0 := by
        simp [hd]
      rw [hif, hzero]
      exact Nat.zero_le _

theorem compactAux_length_add {α : Type} (s : Nat → α → α) :
    ∀ (xs : List α) (del : List Nat) (i k : Nat), del.Pairwise (· < ·) →
      (∀ e ∈ del, i ≤ e ∧ e < i + xs.length) →
      (compactAux s del i k xs).length + del.length = xs.length
  | [], [], i, k, _, _ => rfl
  | [], d :: ds, i, k, _, hb => by
    have := hb d (List.mem_cons_self d ds)
    simp at this
    omega
  | x :: xs, [], i, k, hp, hb => by
    simp only [compactAux, List.length_cons]
    have := compactAux_length_add s xs [] (i + 1) k (by simp) (by simp)
    omega
  | x :: xs, d :: ds, i, k, hp, hb => by
    simp only [compactAux]
    split
    · rename_i hdi
      have hdi' : d = i := by simpa using hdi
      have := compactAux_length_add s xs ds (i + 1) (k + 1)
        (List.Pairwise.sublist (List.sublist_cons_self d ds) hp)
        (fun e he => by
          have h1 := (List.pairwise_cons.mp hp).1 e he
          have h2 := hb e (List.mem_cons_of_mem d he)
          constructor
          · omega
          · simp only [List.length_cons] at h2
            omega)
      simp only [List.length_cons]
      omega
    · rename_i hdi
      have hdi' : d ≠ i := by simpa using hdi
      have hdge : i ≤ d := (hb d (List.mem_cons_self d ds)).1
      have := compactAux_length_add s xs (d :: ds) (i + 1) k hp
        (fun e he => by
          have h2 := hb e he
          simp only [List.length_cons] at h2
          rcases List.mem_cons.mp he with rfl | he2
          · omega
          · have h1 := (List.pairwise_cons.mp hp).1 e he2
            omega)
      simp only [List.length_cons] at this ⊢
      omega

theorem compact_length {α : Type} (s : Nat → α → α) (del : List Nat) (xs : List α)
    (hp : del.Pairwise (· < ·)) (hb : ∀ e ∈ del, e < xs.length) :
    (compact s del xs).length = xs.length - del.length := by
  unfold compact
  have := compactAux_length_add s xs del 0 0 hp
    (fun e he => ⟨Nat.zero_le e, by simpa using hb e he⟩)
  omega

theorem compactAux_getD {α : Type} (s : Nat → α → α) (d : α) :
    ∀ (xs : List α) (del : List Nat) (i k p : Nat), del.Pairwise (· < ·) →
      (∀ e ∈ del, i ≤ e) → p < xs.length → ¬ (i + p) ∈ del →
      (compactAux s del i k xs).getD (p - del.countP (fun e => decide (e < i + p))) d =
        s (i + p - k - del.countP (fun e => decide (e < i + p))) (xs.getD p d)
  | [], del, i, k, p, _, _, hp, _ => by simp at hp
  | x :: xs, [], i, k, 0, _, _, _, _ => by
    simp [compactAux, List.countP_nil]
  | x :: xs, [], i, k, p + 1, _, hge, hplen, hmem => by
    have ih := compactAux_getD s d xs [] (i + 1) k p (by simp) (by simp)
      (by simpa using hplen) (by simp)
    simp only [compactAux, List.countP_nil] at ih ⊢
    simp only [Nat.sub_zero] at ih ⊢
    rw [List.getD_cons_succ, List.getD_cons_succ, ih]
    have : i + 1 + p = i + (p + 1) := by omega
    rw [this]
  | x :: xs, dd :: ds, i, k, p, hpw, hge, hplen, hmem => by
    by_cases hdi : dd = i
    · have hpne : p ≠ 0 := by
        intro h
        subst h
        apply hmem
        rw [Nat.add_zero, ← hdi]
        exact List.mem_cons_self dd ds
      obtain ⟨p', rfl⟩ : ∃ p', p = p' + 1 := ⟨p - 1, by omega⟩
      have hds_ge : ∀ e ∈ ds, i + 1 ≤ e := by
        intro e he
        have := (List.pairwise_cons.mp hpw).1 e he
        omega
      have ih := compactAux_getD s d xs ds (i + 1) (k + 1) p'
        (List.Pairwise.sublist (List.sublist_cons_self dd ds) hpw)
        hds_ge (by simpa using hplen)
        (by
          intro hc
          apply hmem
          have h2 : i + (p' + 1) = i + 1 + p' := by omega
          rw [h2]
          exact List.mem_cons_of_mem _ hc)
      have hcnt : (dd :: ds).countP (fun e => decide (e < i + (p' + 1))) =
          ds.countP (fun e => decide (e < i + (p' + 1))) + 1 := by
        rw [List.countP_cons]
        have hddlt : dd < i + (p' + 1) := by omega
        simp [hddlt]
      simp only [compactAux]
      rw [if_pos (by simpa using hdi)]
      rw [hcnt]
      have harith : p' + 1 - (ds.countP (fun e => decide (e < i + (p' + 1))) + 1) =
          p' - ds.countP (fun e => decide (e < i + (p' + 1))) := by omega
      rw [harith]
      have h1 : i + 1 + p' = i + (p' + 1) := by omega
      rw [h1] at ih
      rw [ih]
      have harith2 : i + (p' + 1) - (k + 1) - ds.countP (fun e => decide (e < i + (p' + 1)))
          = i + (p' + 1) - k - (ds.countP (fun e => decide (e < i + (p' + 1))) + 1) := by
        omega
      rw [harith2]
      rfl
    · have hdge : i ≤ dd := hge dd (List.mem_cons_self dd ds)
      have hdgt : i + 1 ≤ dd := by omega
      have hge' : ∀ e ∈ dd :: ds, i + 1 ≤ e := by
        intro e he
        rcases List.mem_cons.mp he with rfl | he2
        · exact hdgt
        · have := (List.pairwise_cons.mp hpw).1 e he2
          omega
      cases p with
      | zero =>
        have hcnt : (dd :: ds).countP (fun e => decide (e < i + 0)) = 0 := by
          rw [List.countP_eq_zero]
          intro e he
          have := hge' e he
          simp
          omega
        simp only [compactAux, hcnt]
        rw [if_neg (by simpa using hdi)]
        simp
      | succ p' =>
        have ih := compactAux_getD s d xs (dd :: ds) (i + 1) k p' hpw hge'
          (by simpa using hplen)
          (by
            intro hc
            exact hmem (by
              have : i + (p' + 1) = i + 1 + p' := by omega
              rw [this]
              exact hc))
        have hcle : (dd :: ds).countP (fun e => decide (e < i + (p' + 1))) ≤ p' := by
          have := sortedCountP (dd :: ds) (i + 1) (i + (p' + 1)) hpw hge'
          omega
        simp only [compactAux]
        rw [if_neg (by simpa using hdi)]
        have h1 : i + 1 + p' = i + (p' + 1) := by omega
        rw [h1] at ih
        have harith : p' + 1 - (dd :: ds).countP (fun e => decide (e < i + (p' + 1)))
            = (p' - (dd :: ds).countP (fun e => decide (e < i + (p' + 1)))) + 1 := by
          omega
        rw [harith, List.getD_cons_succ, ih]
        have harith2 : i + (p' + 1) - k - (dd :: ds).countP (fun e => decide (e < i + (p' + 1)))
            = i + 1 + p' - k - (dd :: ds).countP (fun e => decide (e < i + (p' + 1))) := by
          omega
        rw [harith2]
        rfl

theorem compactAux_map_sublist {α : Type} (s : Nat → α → α) (f : α → Nat)
    (hf : ∀ j x, f (s j x) = f x) :
    ∀ (xs : List α) (del : List Nat) (i k : Nat),
      ((compactAux s del i k xs).map f).Sublist (xs.map f)
  | [], del, i, k => by
    cases del <;> simp [compactAux]
  | x :: xs, [], i, k => by
    simp only [compactAux, List.map_cons, hf]
    exact (compactAux_map_sublist s f hf xs [] (i + 1) k).cons₂ (f x)
  | x :: xs, dd :: ds, i, k => by
    simp only [compactAux]
    split
    · exact (compactAux_map_sublist s f hf xs ds (i + 1) (k + 1)).cons (f x)
    · simp only [List.map_cons, hf]
      exact (compactAux_map_sublist s f hf xs (dd :: ds) (i + 1) k).cons₂ (f x)

theorem find?_eq_of_mem_of_nodup {α : Type} (f : α → Nat) :
    ∀ (xs : List α) (y : α) (R : Nat), (xs.map f).Nodup → y ∈ xs → f y = R →
      xs.find? (fun x => f x == R) = some y
  | [], y, R, _, hy, _ => absurd hy (List.not_mem_nil y)
  | x :: xs, y, R, hnd, hy, hid => by
    rw [List.find?_cons]
    by_cases hx : f x = R
    · have hxy : x = y := by
        rcases List.mem_cons.mp hy with rfl | hy2
        · rfl
        · exfalso
          have hmem : f y ∈ xs.map f := List.mem_map_of_mem f hy2
          rw [hid, ← hx] at hmem
          exact (List.nodup_cons.mp (by simpa using hnd)).1 hmem
      subst hxy
      simp [hx]
    · have hne : (f x == R) = false := by simpa using hx
      rw [hne]
      have hy2 : y ∈ xs := by
        rcases List.mem_cons.mp hy with rfl | hy2
        · exact absurd hid hx
        · exact hy2
      exact find?_eq_of_mem_of_nodup f xs y R
        (List.nodup_cons.mp (by simpa using hnd)).2 hy2 hid

theorem getD_mem_of_lt {α : Type} (d : α) (xs : List α) (q : Nat) (hq : q < xs.length) :
    xs.getD q d ∈ xs := by
  rw [List.getD_eq_getElem?_getD, List.getElem?_eq_getElem hq]
  exact List.getElem_mem hq

theorem link_of_ite (C : Prop) [Decidable C] (a b : Tree) (w : Nat) :
    Tree.link_of (if C then a else b) w = if C then a.link_of w else b.link_of w := by
  split <;> rfl

theorem foldr_collect_bal (g : Nat → SubtreeCollect) (hg : ∀ c, SubtreeCollect.bal (g c))
    (F : Nat → SubtreeCollect → SubtreeCollect)
    (hF : ∀ c acc, F c acc =
      ⟨(g c).nds ++ acc.nds, (g c).nidx ++ acc.nidx, (g c).eidx ++ acc.eidx,
        (g c).lidx ++ acc.lidx⟩) :
    ∀ ks : List Nat,
      SubtreeCollect.bal (ks.foldr F (⟨[], [], [], []⟩ : SubtreeCollect))
  | [] => by simp [SubtreeCollect.bal]
  | c :: cs => by
    obtain ⟨h1, h2, h3⟩ := hg c
    obtain ⟨g1, g2, g3⟩ := foldr_collect_bal g hg F hF cs
    rw [List.foldr_cons, hF]
    refine ⟨?_, ?_, ?_⟩
    · simp only [List.length_append]
      rw [h1, g1]
    · simp only [List.length_append]
      rw [h2, g2]
    · simp only [List.length_append]
      rw [h3, g3]
      omega

theorem collectSub_balanced (t : Tree) : ∀ (fuel L : Nat),
    SubtreeCollect.bal (collectSub t fuel L) := by
  intro fuel
  induction fuel with
  | zero => intro L; simp [collectSub, SubtreeCollect.bal]
  | succ fuel ih =>
    intro L
    have hb := foldr_collect_bal (fun c => collectSub t fuel (t.link_of c).outer_)
      (fun c => ih (t.link_of c).outer_)
      (fun c acc =>
        (⟨(collectSub t fuel (t.link_of c).outer_).nds ++ acc.nds,
          (collectSub t fuel (t.link_of c).outer_).nidx ++ acc.nidx,
          (collectSub t fuel (t.link_of c).outer_).eidx ++ acc.eidx,
          (collectSub t fuel (t.link_of c).outer_).lidx ++ acc.lidx⟩ : SubtreeCollect))
      (fun c acc => rfl)
      (ringFromAux t L t.links.length (t.link_of L).next_)
    obtain ⟨h1, h2, h3⟩ := hb
    refine ⟨?_, ?_, ?_⟩
    · simp only [collectSub, List.length_cons]
      rw [h1]
    · simp only [collectSub, List.length_cons]
      rw [h2]
    · simp only [collectSub, List.length_cons]
      rw [h3]
      omega

theorem del_count_bound (del : List Nat) (p len : Nat) (hpw : del.Pairwise (· < ·))
    (hb : ∀ e ∈ del, e < len) (hp : p < len) (hnm : ¬ p ∈ del) :
    p - del.countP (fun e => decide (e < p)) < len - del.length := by
  have hsplit : del.length = del.countP (fun e => decide (e < p)) +
      del.countP (fun e => decide (p ≤ e)) := by
    simpa using List.length_eq_countP_add_countP (fun e => decide (e < p)) (l := del)
  have hfil : del.countP (fun e => decide (p ≤ e)) =
      (del.filter (fun e => decide (p ≤ e))).length :=
    List.countP_eq_length_filter _ _
  have hfl : (del.filter (fun e => decide (p ≤ e))).length ≤ len - (p + 1) := by
    apply sortedLen _ (p + 1) len (List.Pairwise.filter _ hpw)
    intro e he
    obtain ⟨he1, he2⟩ := List.mem_filter.mp he
    have hge : p ≤ e := by simpa using he2
    have hne : e ≠ p := fun h => hnm (h ▸ he1)
    exact ⟨by omega, hb e he1⟩
  have hcnt : del.countP (fun e => decide (e < p)) ≤ p := by
    have := sortedCountP del 0 p hpw (fun e _ => Nat.zero_le e)
    omega
  omega

theorem compact_find_getD (ys : List TreeLink) (del : List Nat) (p : Nat)
    (hpw : del.Pairwise (· < ·)) (hb : ∀ e ∈ del, e < ys.length)
    (hp : p < ys.length) (hnm : ¬ p ∈ del) (hnodup : (ys.map TreeLink.id).Nodup) :
    ((compact TreeLink.setIdx del ys).find?
        (fun l => l.id == (ys.getD p default).id)).getD default =
      TreeLink.setIdx (p - del.countP (fun e => decide (e < p))) (ys.getD p default) ∧
    (compact TreeLink.setIdx del ys).getD
        (p - del.countP (fun e => decide (e < p))) default =
      TreeLink.setIdx (p - del.countP (fun e => decide (e < p))) (ys.getD p default) := by
  have hval := compactAux_getD TreeLink.setIdx default ys del 0 0 p hpw
    (fun e _ => Nat.zero_le e) hp (by simpa using hnm)
  simp only [Nat.zero_add, Nat.sub_zero] at hval
  have hval' : (compact TreeLink.setIdx del ys).getD
      (p - del.countP (fun e => decide (e < p))) default =
      TreeLink.setIdx (p - del.countP (fun e => decide (e < p))) (ys.getD p default) := hval
  have hql : p - del.countP (fun e => decide (e < p)) <
      (compact TreeLink.setIdx del ys).length := by
    rw [compact_length _ _ _ hpw hb]
    exact del_count_bound del p ys.length hpw hb hp hnm
  refine ⟨?_, hval'⟩
  have hmem := getD_mem_of_lt default _ _ hql
  rw [hval'] at hmem
  have hsub := compactAux_map_sublist TreeLink.setIdx TreeLink.id (fun j x => rfl) ys del 0 0
  have hnodup2 : ((compact TreeLink.setIdx del ys).map TreeLink.id).Nodup :=
    List.Nodup.sublist hsub hnodup
  have hfind := find?_eq_of_mem_of_nodup TreeLink.id (compact TreeLink.setIdx del ys)
    (TreeLink.setIdx (p - del.countP (fun e => decide (e < p))) (ys.getD p default))
    ((ys.getD p default).id) hnodup2 hmem rfl
  rw [hfind]
  rfl

theorem root_preserved_general (t : Tree) (FN : TreeLink → TreeLink)
    (hid : ∀ l, (FN l).id = l.id)
    (del : List Nat) (hpw : del.Pairwise (· < ·)) (hb : ∀ e ∈ del, e < t.links.length)
    (hp : t.root_link_ < t.links.length) (hnm : ¬ t.root_link_ ∈ del)
    (hnodup : (t.links.map TreeLink.id).Nodup)
    (Nc : List TreeNode) (Ec : List TreeEdge) (ni : Nat) :
    (Tree.root_link
      { links := compact TreeLink.setIdx del (List.map FN t.links),
        nodes := Nc, edges := Ec,
        root_link_ := (Tree.link_of
          { links := compact TreeLink.setIdx del (List.map FN t.links),
            nodes := Nc, edges := Ec, root_link_ := t.root_link_, next_id := ni }
          (t.root_link).id).index,
        next_id := ni }).id = (t.root_link).id := by
  have hys_len : (List.map FN t.links).length = t.links.length := List.length_map _ _
  have hb' : ∀ e ∈ del, e < (List.map FN t.links).length := by
    rw [hys_len]; exact hb
  have hnodup' : ((List.map FN t.links).map TreeLink.id).Nodup := by
    rw [List.map_map]
    have hcmp : (TreeLink.id ∘ FN) = TreeLink.id := funext fun l => hid l
    rw [hcmp]
    exact hnodup
  have hid_getD : ((List.map FN t.links).getD t.root_link_ default).id =
      (t.links.getD t.root_link_ default).id := by
    rw [getD_map_of_lt FN default default t.links t.root_link_ hp, hid]
  obtain ⟨hfind, hgq⟩ := compact_find_getD (List.map FN t.links) del t.root_link_ hpw hb'
    (by rw [hys_len]; exact hp) hnm hnodup'
  simp only [Tree.root_link, Tree.link_at, Tree.link_of]
  rw [← hid_getD]
  rw [hfind]
  simp only [TreeLink.setIdx]
  rw [hgq]
  rfl

/-- Main characterization of `delete_subtree`: with a valid anchor and
well-formed (duplicate-free, in-range) deletion index sets, the operation
returns normally, removes exactly `k` nodes, `k` edges and `2k` links where
`k` is the number of nodes the preorder walk visits, and — when the root
does not lie in the removed region and the stored root link itself is not
among the removed links — the root designation still denotes the same
link. -/
theorem delete_subtree_spec (t : Tree) (anchor : Nat)
    (hl : t.has_link anchor = true)
    (hpwN : (sortNat (collectSub t (t.links.length + 1) anchor).nidx).Pairwise (· < ·))
    (hbN : ∀ e ∈ sortNat (collectSub t (t.links.length + 1) anchor).nidx, e < t.nodes.length)
    (hpwE : (sortNat (collectSub t (t.links.length + 1) anchor).eidx).Pairwise (· < ·))
    (hbE : ∀ e ∈ sortNat (collectSub t (t.links.length + 1) anchor).eidx, e < t.edges.length)
    (hpwL : (sortNat (collectSub t (t.links.length + 1) anchor).lidx).Pairwise (· < ·))
    (hbL : ∀ e ∈ sortNat (collectSub t (t.links.length + 1) anchor).lidx, e < t.links.length) :
    ∃ t', delete_subtree t anchor = .ok t' 0 ∧
      t'.node_count = t.node_count - (collectSub t (t.links.length + 1) anchor).nds.length ∧
      t'.edge_count = t.edge_count - (collectSub t (t.links.length + 1) anchor).nds.length ∧
      t'.link_count = t.link_count -
        2 * (collectSub t (t.links.length + 1) anchor).nds.length ∧
      (((collectSub t (t.links.length + 1) anchor).nds.contains t.root_node.id) = false →
        t.root_link_ < t.links.length →
        ¬ t.root_link_ ∈ sortNat (collectSub t (t.links.length + 1) anchor).lidx →
        (t.links.map TreeLink.id).Nodup →
        t'.root_link.id = t.root_link.id) := by
  obtain ⟨hk1, hk2, hk3⟩ := collectSub_balanced t (t.links.length + 1) anchor
  have hsl : (sortNat (collectSub t (t.links.length + 1) anchor).nidx).length =
      (collectSub t (t.links.length + 1) anchor).nds.length := by
    rw [sortNat_length, hk1]
  have hse : (sortNat (collectSub t (t.links.length + 1) anchor).eidx).length =
      (collectSub t (t.links.length + 1) anchor).nds.length := by
    rw [sortNat_length, hk2]
  have hsL : (sortNat (collectSub t (t.links.length + 1) anchor).lidx).length =
      2 * (collectSub t (t.links.length + 1) anchor).nds.length := by
    rw [sortNat_length, hk3]
  cases hres : delete_subtree t anchor with
  | err m =>
    revert hres
    simp only [delete_subtree, hl, Bool.not_true, Bool.false_eq_true, if_false]
    intro h
    exact absurd h (by simp)
  | fault =>
    revert hres
    simp only [delete_subtree, hl, Bool.not_true, Bool.false_eq_true, if_false]
    intro h
    exact absurd h (by simp)
  | ok t4 r =>
    have hres' := hres
    simp only [delete_subtree, hl, Bool.not_true, Bool.false_eq_true, if_false,
      upd_link_nodes, upd_link_edges, upd_link_links, upd_link_root, upd_link_next_id,
      upd_node_nodes, upd_node_links, upd_node_edges, upd_node_root, upd_node_next_id,
      link_of_ite, apply_ite Tree.links, apply_ite Tree.nodes, apply_ite Tree.edges,
      apply_ite Tree.root_link_, apply_ite Tree.next_id, ite_self,
      node_of_upd_link, link_of_upd_node, edge_of_upd_link, edge_of_upd_node,
      MResult.ok.injEq] at hres'
    obtain ⟨hA, hr⟩ := hres'
    subst hr
    subst hA
    refine ⟨_, rfl, ?_, ?_, ?_, ?_⟩
    · show (compact TreeNode.setIdx _ _).length = t.nodes.length - _
      split
      · rw [compact_length _ _ _ hpwN (by simpa using hbN), List.length_map, hsl]
      · rw [compact_length _ _ _ hpwN hbN, hsl]
    · show (compact TreeEdge.setIdx _ _).length = t.edges.length - _
      rw [compact_length _ _ _ hpwE hbE, hse]
    · show (compact TreeLink.setIdx _ _).length = t.links.length - _
      rw [compact_length _ _ _ hpwL (by simpa using hbL), List.length_map, hsL]
    · intro hcr hrl hnotdel hnodup
      simp only [hcr, Bool.false_eq_true, if_false]
      apply root_preserved_general t _ _ _ hpwL _ hrl hnotdel hnodup
      · intro l
        split <;> rfl
      · exact hbL

/-- C4 counterexample: on the cherry tree, deleting the subtree anchored at
link 3 (which spans only the leaf node 102) leaves the root node 101 outside
the removed region, yet the removed links include the stored root link
(link 1, the attachment link at the root node); the code resolves the root
designation through that deleted link, and after the call the root
designation denotes link 2 instead of link 1. -/
theorem C4_root_link_removed_counterexample :
    cherryT.has_link 3 = true ∧
    (collectSub cherryT (cherryT.links.length + 1) 3).nds = [102] ∧
    cherryT.root_node.id = 101 ∧
    cherryT.root_link.id = 1 ∧
    (sortNat (collectSub cherryT (cherryT.links.length + 1) 3).lidx).contains
      cherryT.root_link_ = true ∧
    delete_subtree cherryT 3 = .ok (delete_subtree cherryT 3).tree 0 ∧
    (delete_subtree cherryT 3).tree.has_node 101 = true ∧
    (delete_subtree cherryT 3).tree.root_link.id = 2 := by decide

/-- C4 (amended): `delete_subtree` on a subtree view spanning exactly `k`
nodes removes exactly `k` nodes, `k` edges and `2k` links, and — when the
root node lies outside the removed region and, in addition, the stored root
link is not among the removed links — the root designation after the call
still denotes the same link as before. -/
theorem C4_delete_subtree_counts_and_root (t : Tree) (anchor k : Nat)
    (hl : t.has_link anchor = true)
    (hk : (collectSub t (t.links.length + 1) anchor).nds.length = k)
    (hpwN : (sortNat (collectSub t (t.links.length + 1) anchor).nidx).Pairwise (· < ·))
    (hbN : ∀ e ∈ sortNat (collectSub t (t.links.length + 1) anchor).nidx, e < t.nodes.length)
    (hpwE : (sortNat (collectSub t (t.links.length + 1) anchor).eidx).Pairwise (· < ·))
    (hbE : ∀ e ∈ sortNat (collectSub t (t.links.length + 1) anchor).eidx, e < t.edges.length)
    (hpwL : (sortNat (collectSub t (t.links.length + 1) anchor).lidx).Pairwise (· < ·))
    (hbL : ∀ e ∈ sortNat (collectSub t (t.links.length + 1) anchor).lidx, e < t.links.length)
    (hroot_out : ((collectSub t (t.links.length + 1) anchor).nds.contains t.root_node.id) = false)
    (hrl : t.root_link_ < t.links.length)
    (hnotdel : ¬ t.root_link_ ∈ sortNat (collectSub t (t.links.length + 1) anchor).lidx)
    (hnodup : (t.links.map TreeLink.id).Nodup) :
    ∃ t', delete_subtree t anchor = .ok t' 0 ∧
      t'.node_count = t.node_count - k ∧
      t'.edge_count = t.edge_count - k ∧
      t'.link_count = t.link_count - 2 * k ∧
      t'.root_link.id = t.root_link.id := by
  obtain ⟨t', h1, h2, h3, h4, h5⟩ :=
    delete_subtree_spec t anchor hl hpwN hbN hpwE hbE hpwL hbL
  exact ⟨t', h1, by rw [h2, hk], by rw [h3, hk], by rw [h4, hk],
    h5 hroot_out hrl hnotdel hnodup⟩

/-- One reroot-walk step in combinator form. -/
theorem flipStep_def (u : Tree) (c : Nat) :
    flipStep u c = (u.upd_edge (u.link_of c).edge_
        (fun ed => { ed with link_p := (u.edge_of (u.link_of c).edge_).link_s, link_s := (u.edge_of (u.link_of c).edge_).link_p })).upd_node
      (u.link_of (u.link_of c).outer_).node_
      (fun n => { n with link_ := (u.link_of c).outer_ }) := rfl

/-- Unfolding of one iteration of the reroot walk. -/
theorem rerootLoop_succ (r0 fuel c : Nat) (u : Tree) :
    rerootLoop r0 (fuel + 1) c u =
      if (u.link_of c).node_ == r0 then u
      else rerootLoop r0 fuel (toRoot u c) (flipStep u c) := rfl

theorem links_flipStep (u : Tree) (c : Nat) : (flipStep u c).links = u.links := rfl

theorem root_flipStep (u : Tree) (c : Nat) :
    (flipStep u c).root_link_ = u.root_link_ := rfl

theorem links_foldl_flipStep :
    ∀ (qs : List Nat) (u : Tree), (List.foldl flipStep u qs).links = u.links := by
  intro qs
  induction qs with
  | nil => intro u; rfl
  | cons q qs ih =>
    intro u
    rw [List.foldl_cons]
    rw [ih (flipStep u q)]
    rfl

theorem root_foldl_flipStep :
    ∀ (qs : List Nat) (u : Tree), (List.foldl flipStep u qs).root_link_ = u.root_link_ := by
  intro qs
  induction qs with
  | nil => intro u; rfl
  | cons q qs ih =>
    intro u
    rw [List.foldl_cons]
    rw [ih (flipStep u q)]
    rfl

theorem link_of_congr2 (t t' : Tree) (h : t.links = t'.links) (w : Nat) :
    t.link_of w = t'.link_of w := by
  unfold Tree.link_of
  rw [h]

theorem link_at_congr2 (t t' : Tree) (h : t.links = t'.links) (i : Nat) :
    t.link_at i = t'.link_at i := by
  unfold Tree.link_at
  rw [h]

theorem has_link_congr2 (t t' : Tree) (h : t.links = t'.links) (w : Nat) :
    t.has_link w = t'.has_link w := by
  unfold Tree.has_link
  rw [h]

/-- A reroot walk along a certified trace is the fold of `flipStep` over the
processed links. -/
theorem loop_eq_foldl (r0 : Nat) :
    ∀ (qs : List Nat) (u : Tree) (c fuel : Nat),
      trace r0 u c qs = true → qs.length < fuel →
      rerootLoop r0 fuel c u = List.foldl flipStep u qs := by
  intro qs
  induction qs with
  | nil =>
    intro u c fuel htr hlen
    cases fuel with
    | zero => omega
    | succ f =>
      rw [rerootLoop_succ, if_pos]
      · rfl
      · simpa [trace] using htr
  | cons q qs ih =>
    intro u c fuel htr hlen
    cases fuel with
    | zero => omega
    | succ f =>
      simp only [trace, Bool.and_eq_true, beq_iff_eq] at htr
      obtain ⟨⟨hcq, hstop⟩, htr'⟩ := htr
      rw [rerootLoop_succ, if_neg]
      · rw [ih (flipStep u c) (toRoot u c) f htr' (by simpa using hlen)]
        rw [List.foldl_cons, ← hcq]
      · simp only [Bool.not_eq_true'] at hstop
        simp [hstop]

/-- Updates of distinct nodes commute. -/
theorem upd_node_comm (t : Tree) (a b : Nat) (f g : TreeNode → TreeNode)
    (hf : ∀ n, (f n).id = n.id) (hg : ∀ n, (g n).id = n.id) (hab : a ≠ b) :
    (t.upd_node a f).upd_node b g = (t.upd_node b g).upd_node a f := by
  have h : (t.nodes.map (fun n => if n.id == a then f n else n)).map
        (fun n => if n.id == b then g n else n) =
      (t.nodes.map (fun n => if n.id == b then g n else n)).map
        (fun n => if n.id == a then f n else n) := by
    rw [List.map_map, List.map_map]
    apply List.map_congr_left
    intro x _
    simp only [Function.comp_apply]
    by_cases h1 : (x.id == a) = true
    · have hxa : x.id = a := by simpa using h1
      have e2 : (x.id == b) = false := by
        rw [hxa]
        exact beq_eq_false_iff_ne.mpr hab
      simp [h1, e2, hf, hg]
    · by_cases h2 : (x.id == b) = true
      · simp [h1, h2, hf, hg]
      · simp [h1, h2]
  show ({ t with nodes := ((t.nodes.map (fun n => if n.id == a then f n else n)).map
      (fun n => if n.id == b then g n else n)) } : Tree) =
    { t with nodes := ((t.nodes.map (fun n => if n.id == b then g n else n)).map
      (fun n => if n.id == a then f n else n)) }
  rw [h]

/-- Two updates of the same edge compose. -/
theorem upd_edge_upd_edge (t : Tree) (e : Nat) (f g : TreeEdge → TreeEdge)
    (hf : ∀ x, (f x).id = x.id) :
    (t.upd_edge e f).upd_edge e g = t.upd_edge e (fun x => g (f x)) := by
  have h : (t.edges.map (fun x => if x.id == e then f x else x)).map
        (fun x => if x.id == e then g x else x) =
      t.edges.map (fun x => if x.id == e then g (f x) else x) := by
    rw [List.map_map]
    apply List.map_congr_left
    intro x _
    simp only [Function.comp_apply]
    by_cases h1 : (x.id == e) = true
    · simp [h1, hf]
    · simp [h1]
  show ({ t with edges := ((t.edges.map (fun x => if x.id == e then f x else x)).map
      (fun x => if x.id == e then g x else x)) } : Tree) =
    { t with edges := (t.edges.map (fun x => if x.id == e then g (f x) else x)) }
  rw [h]

/-- An edge update that fixes every element of the target id is the
identity. -/
theorem upd_edge_eq_self (t : Tree) (e : Nat) (f : TreeEdge → TreeEdge)
    (h : ∀ x ∈ t.edges, x.id = e → f x = x) : t.upd_edge e f = t := by
  have hm : t.edges.map (fun x => if x.id == e then f x else x) = t.edges := by
    have hpt : ∀ x ∈ t.edges, (if x.id == e then f x else x) = id x := by
      intro x hx
      by_cases h1 : (x.id == e) = true
      · rw [if_pos h1]
        exact h x hx (by simpa using h1)
      · rw [if_neg h1]
        rfl
    rw [List.map_congr_left hpt, List.map_id]
  show ({ t with edges := (t.edges.map (fun x => if x.id == e then f x else x)) } : Tree) = t
  rw [hm]

theorem flipStep_root (u : Tree) (r c : Nat) :
    flipStep { u with root_link_ := r } c = { flipStep u c with root_link_ := r } := rfl

theorem foldl_flipStep_root :
    ∀ (qs : List Nat) (u : Tree) (r : Nat),
      List.foldl flipStep { u with root_link_ := r } qs =
        { List.foldl flipStep u qs with root_link_ := r } := by
  intro qs
  induction qs with
  | nil => intro u r; rfl
  | cons q qs ih =>
    intro u r
    rw [List.foldl_cons, flipStep_root, ih, List.foldl_cons]

/-- A node update whose node is not redirected by the walk step commutes
with the step. -/
theorem flipStep_upd_node (u : Tree) (w : Nat) (f : TreeNode → TreeNode) (q : Nat)
    (hf : ∀ n, (f n).id = n.id)
    (hne : (u.link_of (u.link_of q).outer_).node_ ≠ w) :
    flipStep (u.upd_node w f) q = (flipStep u q).upd_node w f := by
  show ((u.upd_edge (u.link_of q).edge_
      (fun ed => { ed with link_p := (u.edge_of (u.link_of q).edge_).link_s, link_s := (u.edge_of (u.link_of q).edge_).link_p })).upd_node w f).upd_node
      (u.link_of (u.link_of q).outer_).node_
      (fun n => { n with link_ := (u.link_of q).outer_ }) =
    ((u.upd_edge (u.link_of q).edge_
      (fun ed => { ed with link_p := (u.edge_of (u.link_of q).edge_).link_s, link_s := (u.edge_of (u.link_of q).edge_).link_p })).upd_node
      (u.link_of (u.link_of q).outer_).node_
      (fun n => { n with link_ := (u.link_of q).outer_ })).upd_node w f
  exact upd_node_comm _ w _ f _ hf (fun n => rfl) (fun hh => hne hh.symm)

theorem foldl_flipStep_upd_node :
    ∀ (qs : List Nat) (u : Tree) (w : Nat) (f : TreeNode → TreeNode),
      (∀ n, (f n).id = n.id) →
      (∀ q ∈ qs, (u.link_of (u.link_of q).outer_).node_ ≠ w) →
      List.foldl flipStep (u.upd_node w f) qs = (List.foldl flipStep u qs).upd_node w f := by
  intro qs
  induction qs with
  | nil => intro u w f _ _; rfl
  | cons q qs ih =>
    intro u w f hf hq
    rw [List.foldl_cons, flipStep_upd_node u w f q hf (hq q (List.mem_cons_self _ _)),
      List.foldl_cons]
    exact ih (flipStep u q) w f hf (fun q' hq' => hq q' (List.mem_cons_of_mem _ hq'))

/-- The round-trip walk is the forward fold followed by the fold over the
outer partners in reverse order. -/
theorem unwind_as_folds :
    ∀ (ps : List Nat) (u : Tree),
      unwind u ps = List.foldl flipStep (List.foldl flipStep u ps)
        (List.reverse (ps.map (fun c => (u.link_of c).outer_))) := by
  intro ps
  induction ps with
  | nil => intro u; rfl
  | cons c rest ih =>
    intro u
    show flipStep (unwind (flipStep u c) rest) ((u.link_of c).outer_) = _
    rw [ih (flipStep u c)]
    rw [List.map_cons, List.reverse_cons, List.foldl_cons, List.foldl_append,
      List.foldl_cons, List.foldl_nil]
    rfl

/-- `reroot` on a valid link is the reroot walk from the captured primary
link of the target node, run on the re-anchored tree. -/
theorem reroot_eq (t : Tree) (L : Nat) (hL : t.has_link L = true) :
    reroot t L =
      .ok (rerootLoop t.root_node.id t.links.length (rerootCur t L) (rerootPre t L)) 0 := by
  simp only [reroot, hL, Bool.not_true, Bool.false_eq_true, if_false]
  rfl

/-- Read off a property of `edge_of` from a property of every stored edge of
that id. -/
theorem edge_of_spec (u : Tree) (e : Nat) (he : u.has_edge e = true)
    (P : TreeEdge → Prop) (h : ∀ x ∈ u.edges, x.id = e → P x) : P (u.edge_of e) := by
  unfold Tree.has_edge at he
  unfold Tree.edge_of
  cases hf : u.edges.find? (fun x => x.id == e) with
  | none => rw [hf] at he; simp at he
  | some x =>
    have hmem := List.mem_of_find?_eq_some hf
    have hpred := List.find?_some hf
    exact h x hmem (by simpa using hpred)

theorem upd_edge_upd_node_comm (t : Tree) (w : Nat) (g : TreeNode → TreeNode)
    (e : Nat) (f : TreeEdge → TreeEdge) :
    (t.upd_node w g).upd_edge e f = (t.upd_edge e f).upd_node w g := rfl

/-- Collapsing the three node updates of a round-trip segment: setting the
next node's primary away, an unrelated later restoration, and finally the
restoration of the next node's primary to its original value. -/
theorem upd_node_stack (u : Tree) (n1 nm p c1 pm : Nat)
    (hne : n1 ≠ nm)
    (hval : ∀ x ∈ u.nodes, x.id = n1 → x.link_ = c1) :
    ((u.upd_node n1 (fun n => { n with link_ := p })).upd_node nm
        (fun n => { n with link_ := pm })).upd_node n1 (fun n => { n with link_ := c1 }) =
      u.upd_node nm (fun n => { n with link_ := pm }) := by
  have h : (((u.nodes.map (fun n => if n.id == n1 then { n with link_ := p } else n)).map
        (fun n => if n.id == nm then { n with link_ := pm } else n)).map
        (fun n => if n.id == n1 then { n with link_ := c1 } else n)) =
      u.nodes.map (fun n => if n.id == nm then { n with link_ := pm } else n) := by
    rw [List.map_map, List.map_map]
    apply List.map_congr_left
    intro x hx
    simp only [Function.comp_apply]
    by_cases h1 : (x.id == n1) = true
    · have hx1 : x.id = n1 := by simpa using h1
      have h2 : (x.id == nm) = false := by
        rw [hx1]
        exact beq_eq_false_iff_ne.mpr hne
      have hv := hval x hx hx1
      simp only [h1, if_true, h2, Bool.false_eq_true, if_false]
      rw [← hv]
    · by_cases h2 : (x.id == nm) = true
      · simp only [h1, Bool.false_eq_true, if_false, h2, if_true]
      · simp only [h1, h2, Bool.false_eq_true, if_false]
  show ({ u with nodes := (((u.nodes.map (fun n => if n.id == n1 then { n with link_ := p } else n)).map
      (fun n => if n.id == nm then { n with link_ := pm } else n)).map
      (fun n => if n.id == n1 then { n with link_ := c1 } else n)) } : Tree) =
    { u with nodes := (u.nodes.map (fun n => if n.id == nm then { n with link_ := pm } else n)) }
  rw [h]

/-- One-level unfolding of the path certificate. -/
theorem chainB_cons (u : Tree) (c : Nat) (rest : List Nat) :
    chainB u (c :: rest) =
      (((u.link_of (u.link_of c).outer_).outer_ == c) &&
       ((u.link_of (u.link_of c).outer_).edge_ == (u.link_of c).edge_) &&
       u.has_edge (u.link_of c).edge_ &&
       (u.edges.all (fun x => !(x.id == (u.link_of c).edge_) ||
         ((x.link_p == (u.link_of c).outer_) && (x.link_s == c)))) &&
       (match rest with
        | [] => true
        | c1 :: _ =>
          ((u.link_of (u.link_of c).outer_).node_ == (u.link_of c1).node_) &&
          !((u.link_of c1).node_ ==
            (u.link_of ((u.link_of (lastOr 0 rest)).outer_)).node_) &&
          (u.nodes.all (fun x => !(x.id == (u.link_of c1).node_) || (x.link_ == c1)))) &&
       chainB (flipStep u c) rest) := rfl

/-- The return step of the round trip at one path link undoes the edge swap
and redirects the node owning the link, regardless of how the nodes were
rewritten in between. -/
theorem flipStep_unflip (u : Tree) (c : Nat) (N : List TreeNode)
    (hA : (u.link_of (u.link_of c).outer_).outer_ = c)
    (hB : (u.link_of (u.link_of c).outer_).edge_ = (u.link_of c).edge_)
    (hC : u.has_edge (u.link_of c).edge_ = true)
    (hD : ∀ x ∈ u.edges, x.id = (u.link_of c).edge_ →
      x.link_p = (u.link_of c).outer_ ∧ x.link_s = c) :
    flipStep { flipStep u c with nodes := N } ((u.link_of c).outer_) =
      ({ u with nodes := N }).upd_node (u.link_of c).node_
        (fun n => { n with link_ := c }) := by
  have hep : (u.edge_of (u.link_of c).edge_).link_p = (u.link_of c).outer_ ∧
      (u.edge_of (u.link_of c).edge_).link_s = c :=
    edge_of_spec u (u.link_of c).edge_ hC
      (fun x => x.link_p = (u.link_of c).outer_ ∧ x.link_s = c) hD
  have hWl : ({ flipStep u c with nodes := N } : Tree).links = u.links := rfl
  rw [flipStep_def { flipStep u c with nodes := N } ((u.link_of c).outer_)]
  simp only [link_of_congr2 { flipStep u c with nodes := N } u hWl]
  rw [hB, hA]
  have hWe : ({ flipStep u c with nodes := N } : Tree).edge_of (u.link_of c).edge_ =
      (fun ed => { ed with link_p := (u.edge_of (u.link_of c).edge_).link_s, link_s := (u.edge_of (u.link_of c).edge_).link_p }) (u.edge_of (u.link_of c).edge_) := by
    show (flipStep u c).edge_of (u.link_of c).edge_ = _
    rw [flipStep_def u c]
    rw [edge_of_upd_node]
    exact edge_of_upd_edge_hit u (u.link_of c).edge_ (u.link_of c).edge_ _
      (fun x => rfl) hC rfl
  have hWp : (({ flipStep u c with nodes := N } : Tree).edge_of (u.link_of c).edge_).link_p = c := by
    rw [hWe]
    exact hep.2
  have hWs : (({ flipStep u c with nodes := N } : Tree).edge_of (u.link_of c).edge_).link_s = (u.link_of c).outer_ := by
    rw [hWe]
    exact hep.1
  rw [hWp, hWs]
  have hWE : ({ flipStep u c with nodes := N } : Tree).upd_edge (u.link_of c).edge_
      (fun ed => { ed with link_p := (u.link_of c).outer_, link_s := c }) =
      { u with nodes := N } := by
    show ((({ u with nodes := N } : Tree).upd_edge (u.link_of c).edge_
        (fun ed => { ed with link_p := (u.edge_of (u.link_of c).edge_).link_s, link_s := (u.edge_of (u.link_of c).edge_).link_p })).upd_edge (u.link_of c).edge_
        (fun ed => { ed with link_p := (u.link_of c).outer_, link_s := c })) = { u with nodes := N }
    rw [upd_edge_upd_edge ({ u with nodes := N } : Tree) (u.link_of c).edge_
      (fun ed => { ed with link_p := (u.edge_of (u.link_of c).edge_).link_s, link_s := (u.edge_of (u.link_of c).edge_).link_p })
      (fun ed => { ed with link_p := (u.link_of c).outer_, link_s := c }) (fun x => rfl)]
    apply upd_edge_eq_self
    intro x hx hxe
    obtain ⟨hxp, hxs⟩ := hD x hx hxe
    cases x with
    | mk xid xidx xp xs xd =>
      show ({ id := xid, index := xidx, link_p := (u.link_of c).outer_, link_s := c, data_ := xd } : TreeEdge) = _
      rw [← hxp, ← hxs]
  rw [hWE]

/-- Inversion of the round-trip walk: along a certified path the forward
pass and the reverse pass cancel, except that the node at the far end keeps
its primary link pointed back along the path and the node at the near end
has its primary link restored to the first processed link. -/
theorem unwind_eq :
    ∀ (ps : List Nat) (u : Tree), chainB u ps = true → ps ≠ [] →
      unwind u ps =
        restorePrimary (restorePrimary u ((u.link_of (lastOr 0 ps)).outer_)) (ps.headD 0) := by
  intro ps
  induction ps with
  | nil =>
    intro u _ hne
    exact absurd rfl hne
  | cons c rest ih =>
    intro u hcb _
    rw [chainB_cons] at hcb
    cases rest with
    | nil =>
      simp only [Bool.and_eq_true, beq_iff_eq, List.all_eq_true] at hcb
      obtain ⟨⟨⟨⟨⟨hA, hB⟩, hC⟩, hD⟩, -⟩, -⟩ := hcb
      have hD' : ∀ x ∈ u.edges, x.id = (u.link_of c).edge_ →
          x.link_p = (u.link_of c).outer_ ∧ x.link_s = c := by
        intro x hx hxe
        have hh := hD x hx
        simp [hxe] at hh
        exact hh
      exact flipStep_unflip u c (flipStep u c).nodes hA hB hC hD'
    | cons c1 rest' =>
      simp only [Bool.and_eq_true, beq_iff_eq, List.all_eq_true, Bool.not_eq_true'] at hcb
      obtain ⟨⟨⟨⟨⟨hA, hB⟩, hC⟩, hD⟩, ⟨⟨hLNK, hNE⟩, hMidb⟩⟩, hR⟩ := hcb
      have hD' : ∀ x ∈ u.edges, x.id = (u.link_of c).edge_ →
          x.link_p = (u.link_of c).outer_ ∧ x.link_s = c := by
        intro x hx hxe
        have hh := hD x hx
        simp [hxe] at hh
        exact hh
      have hNE' : (u.link_of c1).node_ ≠
          (u.link_of ((u.link_of (lastOr 0 (c1 :: rest'))).outer_)).node_ := by
        simpa using hNE
      have hMid' : ∀ x ∈ u.nodes, x.id = (u.link_of c1).node_ → x.link_ = c1 := by
        intro x hx hxe
        have hh := hMidb x hx
        simp [hxe] at hh
        exact hh
      have hih := ih (flipStep u c) hR (List.cons_ne_nil c1 rest')
      have hstack : ({ u with nodes := (restorePrimary (restorePrimary (flipStep u c)
          (((flipStep u c).link_of (lastOr 0 (c1 :: rest'))).outer_))
          ((c1 :: rest').headD 0)).nodes } : Tree) =
          u.upd_node ((u.link_of ((u.link_of (lastOr 0 (c1 :: rest'))).outer_)).node_)
            (fun n => { n with link_ := (u.link_of (lastOr 0 (c1 :: rest'))).outer_ }) := by
        show (((u.upd_node ((u.link_of (u.link_of c).outer_).node_)
            (fun n => { n with link_ := (u.link_of c).outer_ })).upd_node
            ((u.link_of ((u.link_of (lastOr 0 (c1 :: rest'))).outer_)).node_)
            (fun n => { n with link_ := (u.link_of (lastOr 0 (c1 :: rest'))).outer_ })).upd_node
            ((u.link_of c1).node_) (fun n => { n with link_ := c1 })) = _
        rw [hLNK]
        exact upd_node_stack u ((u.link_of c1).node_)
          ((u.link_of ((u.link_of (lastOr 0 (c1 :: rest'))).outer_)).node_)
          ((u.link_of c).outer_) c1 ((u.link_of (lastOr 0 (c1 :: rest'))).outer_) hNE' hMid'
      show flipStep (unwind (flipStep u c) (c1 :: rest')) ((u.link_of c).outer_) = _
      rw [hih]
      exact (flipStep_unflip u c (restorePrimary (restorePrimary (flipStep u c)
          (((flipStep u c).link_of (lastOr 0 (c1 :: rest'))).outer_))
          ((c1 :: rest').headD 0)).nodes hA hB hC hD').trans (by rw [hstack]; rfl)

/-- Collapse of the two primary-link writes of a degenerate round trip (the
new root shares its node with the old root link). -/
theorem two_upd_collapse (nodes : List TreeNode) (nL nR L R : Nat)
    (hLR : nL = nR)
    (hnRval : ∀ x ∈ nodes, x.id = nR → x.link_ = R) :
    ((nodes.map (fun n => if n.id == nL then { n with link_ := L } else n)).map
      (fun n => if n.id == nR then { n with link_ := R } else n)) = nodes := by
  subst hLR
  rw [List.map_map]
  have hpt : ∀ x ∈ nodes,
      ((fun n => if n.id == nL then { n with link_ := R } else n) ∘
        (fun n => if n.id == nL then { n with link_ := L } else n)) x = id x := by
    intro x hx
    simp only [Function.comp_apply]
    by_cases h1 : (x.id == nL) = true
    · have hx1 : x.id = nL := by simpa using h1
      have hv := hnRval x hx hx1
      simp only [h1, if_true]
      rw [← hv]
      rfl
    · simp only [h1, Bool.false_eq_true, if_false]
      rfl
  rw [List.map_congr_left hpt, List.map_id]

/-- Collapse of the four primary-link writes of a full round trip: the first
reroot's write at the new root node, the far-end write of the return walk,
the near-end restoration, and the second reroot's write at the old root
node. -/
theorem four_upd_collapse (nodes : List TreeNode) (nL nm n0 nR L pm c0 R : Nat)
    (hLn0 : n0 = nL) (hmR : nm = nR) (hne : n0 ≠ nR)
    (hn0val : ∀ x ∈ nodes, x.id = n0 → x.link_ = c0)
    (hnRval : ∀ x ∈ nodes, x.id = nR → x.link_ = R) :
    ((((nodes.map (fun n => if n.id == nL then { n with link_ := L } else n)).map
        (fun n => if n.id == nm then { n with link_ := pm } else n)).map
        (fun n => if n.id == n0 then { n with link_ := c0 } else n)).map
        (fun n => if n.id == nR then { n with link_ := R } else n)) = nodes := by
  subst hLn0
  subst hmR
  rw [List.map_map, List.map_map, List.map_map]
  conv_rhs => rw [← List.map_id nodes]
  apply List.map_congr_left
  intro x hx
  simp only [Function.comp_apply]
  by_cases h1 : (x.id == n0) = true
  · have hx1 : x.id = n0 := by simpa using h1
    have h2 : (x.id == nm) = false := by
      rw [hx1]
      exact beq_eq_false_iff_ne.mpr hne
    have hv := hn0val x hx hx1
    simp only [h1, if_true, h2, Bool.false_eq_true, if_false]
    rw [← hv]
    rfl
  · by_cases h2 : (x.id == nm) = true
    · have hx2 : x.id = nm := by simpa using h2
      have hv := hnRval x hx hx2
      simp only [h1, Bool.false_eq_true, if_false, h2, if_true]
      rw [← hv]
      rfl
    · simp only [h1, h2, Bool.false_eq_true, if_false]
      rfl

/-- Normal form of the pre-walk tree of `reroot` when the target link's
stored index resolves back to the link itself. -/
theorem rerootPre_eq (X t : Tree) (R : Nat) (hXl : X.links = t.links)
    (hATR : t.link_at (t.link_of R).index = t.link_of R)
    (hRid : (t.link_of R).id = R) :
    rerootPre X R = ({ X with root_link_ := (t.link_of R).index } : Tree).upd_node
      (t.link_of R).node_ (fun n => { n with link_ := R }) := by
  simp only [rerootPre]
  rw [link_of_congr2 X t hXl R]
  rw [link_at_congr2 X t hXl ((t.link_of R).index)]
  rw [hATR]
  rw [hRid]

/-- Sortedness of an index list under the strict comparator: no later index
has a strictly smaller value than an earlier one. -/
def sortedIdx (lt : Nat → Nat → Bool) (v : List Nat) (l : List Nat) : Prop :=
  l.Pairwise (fun a b => lt (v.getD b 0) (v.getD a 0) = false)

theorem insert_perm (lt : Nat → Nat → Bool) (v : List Nat) (i : Nat) :
    ∀ acc, (insertIdxBy lt v i acc).Perm (i :: acc) := by
  intro acc
  induction acc with
  | nil => exact List.Perm.refl _
  | cons j js ih =>
    show (if lt (v.getD i 0) (v.getD j 0) then i :: j :: js else j :: insertIdxBy lt v i js).Perm _
    by_cases hc : lt (v.getD i 0) (v.getD j 0) = true
    · rw [if_pos hc]
    · rw [if_neg hc]
      exact (List.Perm.cons j ih).trans (List.Perm.swap i j js)

theorem insert_sorted (lt : Nat → Nat → Bool) (v : List Nat)
    (hasym : ∀ a b, lt a b = true → lt b a = false)
    (htr : ∀ a b c, lt a b = true → lt c b = false → lt c a = false) (i : Nat) :
    ∀ acc, sortedIdx lt v acc → sortedIdx lt v (insertIdxBy lt v i acc) := by
  intro acc
  induction acc with
  | nil =>
    intro _
    exact List.pairwise_singleton _ _
  | cons j js ih =>
    intro hs
    simp only [sortedIdx, List.pairwise_cons] at hs
    obtain ⟨hj, hjs⟩ := hs
    show sortedIdx lt v (if lt (v.getD i 0) (v.getD j 0) then i :: j :: js
      else j :: insertIdxBy lt v i js)
    by_cases hc : lt (v.getD i 0) (v.getD j 0) = true
    · rw [if_pos hc]
      refine List.Pairwise.cons ?_ (List.Pairwise.cons hj hjs)
      intro b hb
      rcases List.mem_cons.mp hb with hbj | hbk
      · rw [hbj]
        exact hasym _ _ hc
      · exact htr _ _ _ hc (hj b hbk)
    · rw [if_neg hc]
      refine List.Pairwise.cons ?_ (ih hjs)
      intro b hb
      have hb' := (insert_perm lt v i js).mem_iff.mp hb
      rcases List.mem_cons.mp hb' with hbi | hbk
      · rw [hbi]
        simpa using hc
      · exact hj b hbk

theorem insert_filter_ne (lt : Nat → Nat → Bool) (v : List Nat) (i s : Nat)
    (hne : (v.getD i 0 == s) = false) :
    ∀ acc, (insertIdxBy lt v i acc).filter (fun j => v.getD j 0 == s) =
      acc.filter (fun j => v.getD j 0 == s) := by
  intro acc
  induction acc with
  | nil =>
    show List.filter _ [i] = List.filter _ []
    rw [List.filter_cons_of_neg (by simpa using hne)]
  | cons j js ih =>
    show (if lt (v.getD i 0) (v.getD j 0) then i :: j :: js
      else j :: insertIdxBy lt v i js).filter _ = _
    by_cases hc : lt (v.getD i 0) (v.getD j 0) = true
    · rw [if_pos hc]
      rw [List.filter_cons_of_neg (by simpa using hne)]
    · rw [if_neg hc]
      simp only [List.filter_cons, ih]

theorem insert_filter_eq (lt : Nat → Nat → Bool) (v : List Nat) (i s : Nat)
    (hirr : ∀ a, lt a a = false)
    (heq : (v.getD i 0 == s) = true) :
    ∀ acc, sortedIdx lt v acc →
      (insertIdxBy lt v i acc).filter (fun j => v.getD j 0 == s) =
        acc.filter (fun j => v.getD j 0 == s) ++ [i] := by
  intro acc
  induction acc with
  | nil =>
    intro _
    show List.filter _ [i] = List.filter _ [] ++ [i]
    rw [List.filter_cons_of_pos (by simpa using heq)]
    simp
  | cons j js ih =>
    intro hs
    simp only [sortedIdx, List.pairwise_cons] at hs
    obtain ⟨hj, hjs⟩ := hs
    show (if lt (v.getD i 0) (v.getD j 0) then i :: j :: js
      else j :: insertIdxBy lt v i js).filter _ = _
    by_cases hc : lt (v.getD i 0) (v.getD j 0) = true
    · rw [if_pos hc]
      have hvi : v.getD i 0 = s := by simpa using heq
      have hnil : (j :: js).filter (fun k => v.getD k 0 == s) = [] := by
        rw [List.filter_eq_nil_iff]
        intro k hk
        intro hks
        have hvk : v.getD k 0 = s := by simpa using hks
        rcases List.mem_cons.mp hk with hkj | hkk
        · rw [hkj] at hvk
          rw [hvk, ← hvi] at hc
          rw [hirr (v.getD i 0)] at hc
          exact Bool.false_ne_true hc
        · have hfls := hj k hkk
          rw [hvk, ← hvi] at hfls
          rw [hfls] at hc
          exact Bool.false_ne_true hc
      rw [List.filter_cons_of_pos (by simpa using heq), hnil]
      rfl
    · rw [if_neg hc]
      rw [List.filter_cons, List.filter_cons]
      by_cases hjp : (v.getD j 0 == s) = true
      · simp only [hjp, if_true]
        rw [ih hjs]
        rfl
      · simp only [hjp, Bool.false_eq_true, if_false]
        exact ih hjs

/-- The insertion-sort fold: the result is sorted, is a permutation of the
input indices appended to the accumulator, and for every value the indices
of that value appear in input order behind those of the accumulator. -/
theorem ssi_fold (lt : Nat → Nat → Bool) (v : List Nat)
    (hirr : ∀ a, lt a a = false)
    (hasym : ∀ a b, lt a b = true → lt b a = false)
    (htr : ∀ a b c, lt a b = true → lt c b = false → lt c a = false) :
    ∀ (l acc : List Nat), sortedIdx lt v acc →
      sortedIdx lt v (l.foldl (fun a i => insertIdxBy lt v i a) acc) ∧
      (l.foldl (fun a i => insertIdxBy lt v i a) acc).Perm (acc ++ l) ∧
      (∀ s, (l.foldl (fun a i => insertIdxBy lt v i a) acc).filter
          (fun j => v.getD j 0 == s) =
        acc.filter (fun j => v.getD j 0 == s) ++ l.filter (fun j => v.getD j 0 == s)) := by
  intro l
  induction l with
  | nil =>
    intro acc hs
    refine ⟨hs, by simp, fun s => by simp⟩
  | cons i l' ih =>
    intro acc hs
    have hs' := insert_sorted lt v hasym htr i acc hs
    obtain ⟨h1, h2, h3⟩ := ih (insertIdxBy lt v i acc) hs'
    refine ⟨h1, ?_, ?_⟩
    · refine h2.trans ?_
      refine (List.Perm.append_right l' (insert_perm lt v i acc)).trans ?_
      exact List.perm_middle.symm
    · intro s
      show List.filter _ (List.foldl _ (insertIdxBy lt v i acc) l') = _
      rw [h3 s]
      by_cases hval : (v.getD i 0 == s) = true
      · rw [insert_filter_eq lt v i s hirr hval acc hs]
        rw [List.filter_cons]
        simp only [hval, if_true]
        simp
      · have hvf : (v.getD i 0 == s) = false := by simpa using hval
        rw [insert_filter_ne lt v i s hvf acc]
        rw [List.filter_cons]
        simp only [hvf, Bool.false_eq_true, if_false]

/-- The three comparator facts for both ladderize orders. -/
theorem ltOf_facts (ord : LadderizeOrder) :
    (∀ a, ltOf ord a a = false) ∧
    (∀ a b, ltOf ord a b = true → ltOf ord b a = false) ∧
    (∀ a b c, ltOf ord a b = true → ltOf ord c b = false → ltOf ord c a = false) := by
  cases ord <;>
    exact ⟨fun a => by simp [ltOf],
      fun a b h => by simp [ltOf] at *; omega,
      fun a b c h1 h2 => by simp [ltOf] at *; omega⟩

/-- Characterization of `stable_sort_indices`: a sorted permutation of the
index range which keeps equal-valued indices in their original order. -/
theorem stable_sort_indices_spec (ord : LadderizeOrder) (v : List Nat) :
    sortedIdx (ltOf ord) v (stable_sort_indices (ltOf ord) v) ∧
    (stable_sort_indices (ltOf ord) v).Perm (List.range v.length) ∧
    (∀ s, (stable_sort_indices (ltOf ord) v).filter (fun j => v.getD j 0 == s) =
      (List.range v.length).filter (fun j => v.getD j 0 == s)) := by
  obtain ⟨hirr, hasym, htr⟩ := ltOf_facts ord
  obtain ⟨h1, h2, h3⟩ := ssi_fold (ltOf ord) v hirr hasym htr (List.range v.length) []
    (List.Pairwise.nil)
  exact ⟨h1, by simpa using h2, fun s => by simpa using h3 s⟩

theorem relink_frame (p : Nat) :
    ∀ (cs : List Nat) (cur : Nat) (u : Tree) (x : Nat),
      x ≠ cur → ¬ x ∈ cs → (relinkChain p cur cs u).link_of x = u.link_of x := by
  intro cs
  induction cs with
  | nil =>
    intro cur u x hx _
    show ((u.upd_link cur (fun l => { l with next_ := p })).link_of x) = u.link_of x
    rw [link_of_upd_link u cur x (fun l => { l with next_ := p }) (fun l => rfl),
      if_neg (fun h => hx h.2)]
  | cons c cs' ih =>
    intro cur u x hx hmem
    show (relinkChain p c cs' (u.upd_link cur (fun l => { l with next_ := c }))).link_of x = _
    rw [ih c _ x (fun h => hmem (by rw [h]; exact List.mem_cons_self c cs'))
      (fun h => hmem (List.mem_cons_of_mem c h))]
    rw [link_of_upd_link u cur x (fun l => { l with next_ := c }) (fun l => rfl),
      if_neg (fun h => hx h.2)]

theorem relink_cur_next (p : Nat) :
    ∀ (cs : List Nat) (cur : Nat) (u : Tree),
      ¬ cur ∈ cs → u.has_link cur = true →
      ((relinkChain p cur cs u).link_of cur).next_ = cs.headD p := by
  intro cs
  induction cs with
  | nil =>
    intro cur u _ hcur
    show (((u.upd_link cur (fun l => { l with next_ := p })).link_of cur)).next_ = p
    rw [link_of_upd_link u cur cur (fun l => { l with next_ := p }) (fun l => rfl),
      if_pos ⟨hcur, rfl⟩]
  | cons c cs' ih =>
    intro cur u hmem hcur
    show ((relinkChain p c cs'
      (u.upd_link cur (fun l => { l with next_ := c }))).link_of cur).next_ = c
    rw [relink_frame p cs' c _ cur
      (fun h => hmem (by rw [h]; exact List.mem_cons_self c cs'))
      (fun h => hmem (List.mem_cons_of_mem c h))]
    rw [link_of_upd_link u cur cur (fun l => { l with next_ := c }) (fun l => rfl),
      if_pos ⟨hcur, rfl⟩]

theorem relink_mem_next (p : Nat) :
    ∀ (cs : List Nat) (cur : Nat) (u : Tree),
      ¬ cur ∈ cs → cs.Nodup → (∀ c ∈ cs, u.has_link c = true) →
      ∀ c ∈ cs, (((relinkChain p cur cs u).link_of c).next_ ∈ cs ∨
        ((relinkChain p cur cs u).link_of c).next_ = p) := by
  intro cs
  induction cs with
  | nil =>
    intro cur u _ _ _ c hc
    exact absurd hc (List.not_mem_nil c)
  | cons c0 cs' ih =>
    intro cur u hmem hnd hall c hc
    have hnd' := List.nodup_cons.mp hnd
    have hhas0 : (u.upd_link cur (fun l => { l with next_ := c0 })).has_link c0 = true := by
      rw [has_link_upd_link u cur c0 (fun l => { l with next_ := c0 }) (fun l => rfl)]
      exact hall c0 (List.mem_cons_self c0 cs')
    have hhas' : ∀ c' ∈ cs',
        (u.upd_link cur (fun l => { l with next_ := c0 })).has_link c' = true := by
      intro c' hc'
      rw [has_link_upd_link u cur c' (fun l => { l with next_ := c0 }) (fun l => rfl)]
      exact hall c' (List.mem_cons_of_mem c0 hc')
    rcases List.mem_cons.mp hc with hc0 | hcs'
    · subst hc0
      show (((relinkChain p c cs'
        (u.upd_link cur (fun l => { l with next_ := c }))).link_of c).next_ ∈ c :: cs' ∨
        ((relinkChain p c cs'
          (u.upd_link cur (fun l => { l with next_ := c }))).link_of c).next_ = p)
      rw [relink_cur_next p cs' c _ hnd'.1 hhas0]
      cases cs' with
      | nil => exact Or.inr rfl
      | cons d ds => exact Or.inl (List.mem_cons_of_mem c (List.mem_cons_self d ds))
    · have := ih c0 (u.upd_link cur (fun l => { l with next_ := c0 })) hnd'.1 hnd'.2
        hhas' c hcs'
      rcases this with h | h
      · exact Or.inl (List.mem_cons_of_mem c0 h)
      · exact Or.inr h

theorem ringFromAux_congr_on (S : List Nat) (stop : Nat) (t1 t2 : Tree)
    (hagree : ∀ x ∈ S, t1.link_of x = t2.link_of x)
    (hclosed : ∀ x ∈ S, (t2.link_of x).next_ ∈ S ∨ (t2.link_of x).next_ = stop) :
    ∀ (fuel cur : Nat), (cur ∈ S ∨ cur = stop) →
      ringFromAux t1 stop fuel cur = ringFromAux t2 stop fuel cur := by
  intro fuel
  induction fuel with
  | zero => intro cur _; rfl
  | succ f ih =>
    intro cur hcur
    show (if cur == stop then [] else cur :: ringFromAux t1 stop f (t1.link_of cur).next_) =
      (if cur == stop then [] else cur :: ringFromAux t2 stop f (t2.link_of cur).next_)
    by_cases hs : (cur == stop) = true
    · rw [if_pos hs, if_pos hs]
    · rw [if_neg hs, if_neg hs]
      rcases hcur with hin | hstop
      · rw [hagree cur hin]
        exact congrArg (cur :: ·) (ih ((t2.link_of cur).next_) (hclosed cur hin))
      · exact absurd hs (by simp [hstop])

theorem relink_ring (p : Nat) :
    ∀ (cs : List Nat) (u : Tree) (cur fuel : Nat),
      cs.length < fuel → ¬ cur ∈ cs → ¬ p ∈ cs → cs.Nodup →
      u.has_link cur = true → (∀ c ∈ cs, u.has_link c = true) →
      ringFromAux (relinkChain p cur cs u) p fuel
        (((relinkChain p cur cs u).link_of cur).next_) = cs := by
  intro cs
  induction cs with
  | nil =>
    intro u cur fuel hf _ _ _ hcur _
    rw [relink_cur_next p [] cur u (List.not_mem_nil cur) hcur]
    cases fuel with
    | zero => omega
    | succ f => simp [ringFromAux]
  | cons c cs' ih =>
    intro u cur fuel hf hmem hp hnd hcur hall
    have hnd' := List.nodup_cons.mp hnd
    rw [relink_cur_next p (c :: cs') cur u hmem hcur]
    cases fuel with
    | zero => omega
    | succ f =>
      show (if c == p then []
        else c :: ringFromAux (relinkChain p cur (c :: cs') u) p f
          (((relinkChain p cur (c :: cs') u).link_of c).next_)) = c :: cs'
      rw [if_neg (by
        intro h
        exact hp (by rw [show c = p from by simpa using h]; exact List.mem_cons_self p cs'))]
      refine congrArg (c :: ·) ?_
      show ringFromAux (relinkChain p c cs'
        (u.upd_link cur (fun l => { l with next_ := c }))) p f
        (((relinkChain p c cs'
          (u.upd_link cur (fun l => { l with next_ := c }))).link_of c).next_) = cs'
      refine ih (u.upd_link cur (fun l => { l with next_ := c })) c f
        (by simp at hf; omega) hnd'.1
        (fun h => hp (List.mem_cons_of_mem c h)) hnd'.2 ?_ ?_
      · rw [has_link_upd_link u cur c (fun l => { l with next_ := c }) (fun l => rfl)]
        exact hall c (List.mem_cons_self c cs')
      · intro c' hc'
        rw [has_link_upd_link u cur c' (fun l => { l with next_ := c }) (fun l => rfl)]
        exact hall c' (List.mem_cons_of_mem c hc')

theorem map_getD_range (d : Nat) : ∀ (l : List Nat),
    (List.range l.length).map (fun i => l.getD i d) = l := by
  intro l
  induction l with
  | nil => rfl
  | cons a l ih =>
    rw [List.length_cons, List.range_succ_eq_map, List.map_cons, List.map_map]
    show (a :: l).getD 0 d :: _ = _
    refine congrArg (a :: ·) ?_
    rw [show ((fun i => (a :: l).getD i d) ∘ (fun i => i + 1)) = (fun i => l.getD i d) from
      funext (fun i => by simp [Function.comp])]
    exact ih

theorem filter_of_map (f : Nat → Nat) (q : Nat → Bool) : ∀ (l : List Nat),
    (l.map f).filter q = (l.filter (fun x => q (f x))).map f := by
  intro l
  induction l with
  | nil => rfl
  | cons a l ih =>
    rw [List.map_cons, List.filter_cons, List.filter_cons]
    by_cases hq : q (f a) = true
    · simp only [hq, if_true, List.map_cons, ih]
    · simp only [hq, Bool.false_eq_true, if_false, ih]

/-- One-level unfolding of the ladderize certificate. -/
theorem ladderCert_cons (t0 : Tree) (ord : LadderizeOrder) (nid : Nat)
    (ids prot : List Nat) (u : Tree) :
    ladderCert t0 ord (nid :: ids) prot u =
      (((u.is_leaf nid) == (t0.is_leaf nid)) &&
       (if u.is_leaf nid then ladderCert t0 ord ids prot u
        else
          ((u.node_of nid).link_ == (t0.node_of nid).link_) &&
          (ringFromAux u (u.node_of nid).link_ u.links.length
              ((u.link_of (u.node_of nid).link_).next_) == ringOf t0 t0 nid) &&
          ((ringOf t0 t0 nid).map
              (fun c => szsOf t0 ((u.node_of (u.link_of (u.link_of c).outer_).node_).index)) ==
            (ringOf t0 t0 nid).map (szAt t0)) &&
          u.has_link (u.node_of nid).link_ &&
          (decide (¬ (t0.node_of nid).link_ ∈ ((stable_sort_indices (ltOf ord)
              ((ringOf t0 t0 nid).map (szAt t0))).map
              (fun oi => (ringOf t0 t0 nid).getD oi 0))) &&
           decide ((stable_sort_indices (ltOf ord)
              ((ringOf t0 t0 nid).map (szAt t0))).map
              (fun oi => (ringOf t0 t0 nid).getD oi 0)).Nodup &&
           (((stable_sort_indices (ltOf ord)
              ((ringOf t0 t0 nid).map (szAt t0))).map
              (fun oi => (ringOf t0 t0 nid).getD oi 0)).all (fun c => u.has_link c)) &&
           decide (((stable_sort_indices (ltOf ord)
              ((ringOf t0 t0 nid).map (szAt t0))).map
              (fun oi => (ringOf t0 t0 nid).getD oi 0)).length < t0.links.length) &&
           (((t0.node_of nid).link_ :: ((stable_sort_indices (ltOf ord)
              ((ringOf t0 t0 nid).map (szAt t0))).map
              (fun oi => (ringOf t0 t0 nid).getD oi 0))).all (fun x => decide (¬ x ∈ prot))) &&
           ladderCert t0 ord ids (prot ++ (t0.node_of nid).link_ :: ((stable_sort_indices (ltOf ord)
              ((ringOf t0 t0 nid).map (szAt t0))).map
              (fun oi => (ringOf t0 t0 nid).getD oi 0)))
             (ladderizeNode u (szsOf t0) ord nid)))) := rfl

/-- The ladderize body in comparator normal form. -/
theorem ladderizeNode_eq (u : Tree) (szs : Nat → Nat) (ord : LadderizeOrder) (nid : Nat) :
    ladderizeNode u szs ord nid =
      if u.is_leaf nid then u
      else relinkChain (u.node_of nid).link_ (u.node_of nid).link_
        ((stable_sort_indices (ltOf ord)
          ((ringFromAux u (u.node_of nid).link_ u.links.length
            ((u.link_of (u.node_of nid).link_).next_)).map
            (fun c => szs (u.node_of (u.link_of (u.link_of c).outer_).node_).index))).map
          (fun oi => (ringFromAux u (u.node_of nid).link_ u.links.length
            ((u.link_of (u.node_of nid).link_).next_)).getD oi 0)) u := by
  cases ord <;> rfl

/-- The `ladderize` fold under its certificate: links rewritten by earlier
steps are never touched again, and every internal node of the original tree
ends with its ring stably sorted by subtree size. -/
theorem ladder_fold_spec (t : Tree) (ord : LadderizeOrder) :
    ∀ (ids prot : List Nat) (u : Tree),
      ladderCert t ord ids prot u = true →
      (∀ x ∈ prot,
        (List.foldl (fun acc nid => ladderizeNode acc (szsOf t) ord nid) u ids).link_of x =
          u.link_of x) ∧
      (∀ nid ∈ ids, t.is_leaf nid = false →
        ladderNodeProp t ord
          (List.foldl (fun acc nid => ladderizeNode acc (szsOf t) ord nid) u ids) nid) := by
  intro ids
  induction ids with
  | nil =>
    intro prot u _
    exact ⟨fun x _ => rfl, fun nid h => absurd h (List.not_mem_nil nid)⟩
  | cons nid ids' ih =>
    intro prot u hcert
    rw [ladderCert_cons] at hcert
    simp only [Bool.and_eq_true, beq_iff_eq] at hcert
    obtain ⟨hleafeq, hrest⟩ := hcert
    by_cases hlf : u.is_leaf nid = true
    · rw [if_pos hlf] at hrest
      have hstep : ladderizeNode u (szsOf t) ord nid = u := by
        rw [ladderizeNode_eq, if_pos hlf]
      obtain ⟨hfr, hprop⟩ := ih prot u hrest
      constructor
      · intro x hx
        show (List.foldl (fun acc nid => ladderizeNode acc (szsOf t) ord nid)
          (ladderizeNode u (szsOf t) ord nid) ids').link_of x = u.link_of x
        rw [hstep]
        exact hfr x hx
      · intro nid2 hmem hint
        rcases List.mem_cons.mp hmem with h2 | h2
        · exfalso
          rw [h2] at hint
          rw [hleafeq, hint] at hlf
          exact Bool.false_ne_true hlf
        · have hp2 := hprop nid2 h2 hint
          show ladderNodeProp t ord (List.foldl (fun acc nid => ladderizeNode acc (szsOf t) ord nid)
            (ladderizeNode u (szsOf t) ord nid) ids') nid2
          rw [hstep]
          exact hp2
    · rw [if_neg hlf] at hrest
      simp only [Bool.and_eq_true, beq_iff_eq, decide_eq_true_eq, List.all_eq_true] at hrest
      obtain ⟨⟨⟨⟨hpeq, hcseq⟩, hveq⟩, hhasp⟩,
        ⟨⟨⟨⟨⟨hnotp, hnodup⟩, hhasall⟩, hlenlt⟩, hprotd⟩, hrec⟩⟩ := hrest
      have hstep : ladderizeNode u (szsOf t) ord nid =
          relinkChain (t.node_of nid).link_ (t.node_of nid).link_
            ((stable_sort_indices (ltOf ord) ((ringOf t t nid).map (szAt t))).map
              (fun oi => (ringOf t t nid).getD oi 0)) u := by
        rw [ladderizeNode_eq, if_neg hlf]
        simp only [hcseq]
        simp only [hveq]
        simp only [hpeq]
      obtain ⟨hfr, hprop⟩ := ih (prot ++ (t.node_of nid).link_ ::
          ((stable_sort_indices (ltOf ord) ((ringOf t t nid).map (szAt t))).map
            (fun oi => (ringOf t t nid).getD oi 0))) (ladderizeNode u (szsOf t) ord nid) hrec
      have hlof_step : ∀ x, (ladderizeNode u (szsOf t) ord nid).link_of x =
          (relinkChain (t.node_of nid).link_ (t.node_of nid).link_
            ((stable_sort_indices (ltOf ord) ((ringOf t t nid).map (szAt t))).map
              (fun oi => (ringOf t t nid).getD oi 0)) u).link_of x := by
        intro x
        rw [hstep]
      constructor
      · intro x hx
        show (List.foldl (fun acc nid => ladderizeNode acc (szsOf t) ord nid)
          (ladderizeNode u (szsOf t) ord nid) ids').link_of x = u.link_of x
        rw [hfr x (List.mem_append_left _ hx)]
        rw [hlof_step x]
        refine relink_frame _ _ _ _ _ ?_ ?_
        · intro hxp
          refine hprotd (t.node_of nid).link_ (List.mem_cons_self _ _) ?_
          rw [← hxp]
          exact hx
        · intro hxm
          exact hprotd x (List.mem_cons_of_mem _ hxm) hx
      · intro nid2 hmem hint
        rcases List.mem_cons.mp hmem with h2 | h2
        · subst h2
          have hhaspT : u.has_link (t.node_of nid2).link_ = true := by
            rw [← hpeq]
            exact hhasp
          have hring_u' := relink_ring (t.node_of nid2).link_
            ((stable_sort_indices (ltOf ord) ((ringOf t t nid2).map (szAt t))).map
              (fun oi => (ringOf t t nid2).getD oi 0)) u (t.node_of nid2).link_
            t.links.length hlenlt hnotp hnotp hnodup hhaspT hhasall
          have hnext_mem := relink_mem_next (t.node_of nid2).link_
            ((stable_sort_indices (ltOf ord) ((ringOf t t nid2).map (szAt t))).map
              (fun oi => (ringOf t t nid2).getD oi 0)) (t.node_of nid2).link_ u
            hnotp hnodup hhasall
          have hcur_next := relink_cur_next (t.node_of nid2).link_
            ((stable_sort_indices (ltOf ord) ((ringOf t t nid2).map (szAt t))).map
              (fun oi => (ringOf t t nid2).getD oi 0)) (t.node_of nid2).link_ u
            hnotp hhaspT
          have hagree : ∀ x ∈ (t.node_of nid2).link_ ::
              ((stable_sort_indices (ltOf ord) ((ringOf t t nid2).map (szAt t))).map
                (fun oi => (ringOf t t nid2).getD oi 0)),
              (List.foldl (fun acc nid => ladderizeNode acc (szsOf t) ord nid)
                (ladderizeNode u (szsOf t) ord nid2) ids').link_of x =
              (relinkChain (t.node_of nid2).link_ (t.node_of nid2).link_
                ((stable_sort_indices (ltOf ord) ((ringOf t t nid2).map (szAt t))).map
                  (fun oi => (ringOf t t nid2).getD oi 0)) u).link_of x := by
            intro x hx
            rw [hfr x (List.mem_append_right _ hx)]
            exact hlof_step x
          have hclosed : ∀ x ∈ (t.node_of nid2).link_ ::
              ((stable_sort_indices (ltOf ord) ((ringOf t t nid2).map (szAt t))).map
                (fun oi => (ringOf t t nid2).getD oi 0)),
              ((relinkChain (t.node_of nid2).link_ (t.node_of nid2).link_
                ((stable_sort_indices (ltOf ord) ((ringOf t t nid2).map (szAt t))).map
                  (fun oi => (ringOf t t nid2).getD oi 0)) u).link_of x).next_ ∈
                (t.node_of nid2).link_ ::
                ((stable_sort_indices (ltOf ord) ((ringOf t t nid2).map (szAt t))).map
                  (fun oi => (ringOf t t nid2).getD oi 0)) ∨
              ((relinkChain (t.node_of nid2).link_ (t.node_of nid2).link_
                ((stable_sort_indices (ltOf ord) ((ringOf t t nid2).map (szAt t))).map
                  (fun oi => (ringOf t t nid2).getD oi 0)) u).link_of x).next_ =
                (t.node_of nid2).link_ := by
            intro x hx
            rcases List.mem_cons.mp hx with hxp | hxm
            · rw [hxp, hcur_next]
              cases hcs : (stable_sort_indices (ltOf ord) ((ringOf t t nid2).map (szAt t))).map
                  (fun oi => (ringOf t t nid2).getD oi 0) with
              | nil => exact Or.inr rfl
              | cons d ds =>
                exact Or.inl (List.mem_cons_of_mem _ (List.mem_cons_self d ds))
            · rcases hnext_mem x hxm with h | h
              · exact Or.inl (List.mem_cons_of_mem _ h)
              · exact Or.inr h
          have hcur_in : (((relinkChain (t.node_of nid2).link_ (t.node_of nid2).link_
              ((stable_sort_indices (ltOf ord) ((ringOf t t nid2).map (szAt t))).map
                (fun oi => (ringOf t t nid2).getD oi 0)) u).link_of
                (t.node_of nid2).link_).next_ ∈ (t.node_of nid2).link_ ::
              ((stable_sort_indices (ltOf ord) ((ringOf t t nid2).map (szAt t))).map
                (fun oi => (ringOf t t nid2).getD oi 0)) ∨
              ((relinkChain (t.node_of nid2).link_ (t.node_of nid2).link_
              ((stable_sort_indices (ltOf ord) ((ringOf t t nid2).map (szAt t))).map
                (fun oi => (ringOf t t nid2).getD oi 0)) u).link_of
                (t.node_of nid2).link_).next_ = (t.node_of nid2).link_) := by
            rw [hcur_next]
            cases hcs : (stable_sort_indices (ltOf ord) ((ringOf t t nid2).map (szAt t))).map
                (fun oi => (ringOf t t nid2).getD oi 0) with
            | nil => exact Or.inr rfl
            | cons d ds =>
              exact Or.inl (List.mem_cons_of_mem _ (List.mem_cons_self d ds))
          have hringf : ringOf (List.foldl (fun acc nid => ladderizeNode acc (szsOf t) ord nid)
              (ladderizeNode u (szsOf t) ord nid2) ids') t nid2 =
              (stable_sort_indices (ltOf ord) ((ringOf t t nid2).map (szAt t))).map
                (fun oi => (ringOf t t nid2).getD oi 0) := by
            show ringFromAux _ (t.node_of nid2).link_ t.links.length _ = _
            rw [hagree (t.node_of nid2).link_ (List.mem_cons_self _ _)]
            rw [ringFromAux_congr_on ((t.node_of nid2).link_ ::
              ((stable_sort_indices (ltOf ord) ((ringOf t t nid2).map (szAt t))).map
                (fun oi => (ringOf t t nid2).getD oi 0))) (t.node_of nid2).link_ _ _
              hagree hclosed t.links.length _ hcur_in]
            exact hring_u'
          show ladderNodeProp t ord (List.foldl (fun acc nid => ladderizeNode acc (szsOf t) ord nid)
            (ladderizeNode u (szsOf t) ord nid2) ids') nid2
          obtain ⟨hsort, hperm, hstab⟩ :=
            stable_sort_indices_spec ord ((ringOf t t nid2).map (szAt t))
          have hbound : ∀ i ∈ stable_sort_indices (ltOf ord) ((ringOf t t nid2).map (szAt t)),
              i < (ringOf t t nid2).length := by
            intro i hi
            have hr := List.mem_range.mp (hperm.mem_iff.mp hi)
            simpa using hr
          refine ⟨hringf, ?_, ?_⟩
          · rw [hringf]
            have hmapmap : ((stable_sort_indices (ltOf ord)
                ((ringOf t t nid2).map (szAt t))).map
                  (fun oi => (ringOf t t nid2).getD oi 0)).map (szAt t) =
                (stable_sort_indices (ltOf ord) ((ringOf t t nid2).map (szAt t))).map
                  (fun i => ((ringOf t t nid2).map (szAt t)).getD i 0) := by
              rw [List.map_map]
              apply List.map_congr_left
              intro i hi
              simp only [Function.comp_apply]
              exact (getD_map_of_lt (szAt t) 0 0 (ringOf t t nid2) i (hbound i hi)).symm
            rw [hmapmap, List.pairwise_map]
            exact hsort
          · intro s
            rw [hringf]
            calc ((stable_sort_indices (ltOf ord) ((ringOf t t nid2).map (szAt t))).map
                (fun oi => (ringOf t t nid2).getD oi 0)).filter (fun c => szAt t c == s)
                = ((stable_sort_indices (ltOf ord) ((ringOf t t nid2).map (szAt t))).filter
                    (fun i => szAt t ((ringOf t t nid2).getD i 0) == s)).map
                    (fun oi => (ringOf t t nid2).getD oi 0) :=
                  filter_of_map _ _ _
              _ = ((stable_sort_indices (ltOf ord) ((ringOf t t nid2).map (szAt t))).filter
                    (fun i => ((ringOf t t nid2).map (szAt t)).getD i 0 == s)).map
                    (fun oi => (ringOf t t nid2).getD oi 0) := by
                  have hpred1 : ∀ i ∈ stable_sort_indices (ltOf ord)
                      ((ringOf t t nid2).map (szAt t)),
                      (szAt t ((ringOf t t nid2).getD i 0) == s) =
                        (((ringOf t t nid2).map (szAt t)).getD i 0 == s) := by
                    intro i hi
                    rw [getD_map_of_lt (szAt t) 0 0 (ringOf t t nid2) i (hbound i hi)]
                  rw [List.filter_congr hpred1]
              _ = ((List.range ((ringOf t t nid2).map (szAt t)).length).filter
                    (fun i => ((ringOf t t nid2).map (szAt t)).getD i 0 == s)).map
                    (fun oi => (ringOf t t nid2).getD oi 0) := by
                  rw [hstab s]
              _ = ((List.range (ringOf t t nid2).length).filter
                    (fun i => ((ringOf t t nid2).map (szAt t)).getD i 0 == s)).map
                    (fun oi => (ringOf t t nid2).getD oi 0) := by
                  rw [List.length_map]
              _ = ((List.range (ringOf t t nid2).length).filter
                    (fun i => szAt t ((ringOf t t nid2).getD i 0) == s)).map
                    (fun oi => (ringOf t t nid2).getD oi 0) := by
                  have hpred2 : ∀ i ∈ List.range (ringOf t t nid2).length,
                      (((ringOf t t nid2).map (szAt t)).getD i 0 == s) =
                        (szAt t ((ringOf t t nid2).getD i 0) == s) := by
                    intro i hi
                    rw [getD_map_of_lt (szAt t) 0 0 (ringOf t t nid2) i
                      (List.mem_range.mp hi)]
                  rw [List.filter_congr hpred2]
              _ = ((List.range (ringOf t t nid2).length).map
                    (fun oi => (ringOf t t nid2).getD oi 0)).filter
                    (fun c => szAt t c == s) :=
                  (filter_of_map (fun oi => (ringOf t t nid2).getD oi 0)
                    (fun c => szAt t c == s)
                    (List.range (ringOf t t nid2).length)).symm
              _ = (ringOf t t nid2).filter (fun c => szAt t c == s) := by
                  rw [map_getD_range 0 (ringOf t t nid2)]
        · have hp2 := hprop nid2 h2 hint
          show ladderNodeProp t ord (List.foldl (fun acc nid => ladderizeNode acc (szsOf t) ord nid)
            (ladderizeNode u (szsOf t) ord nid) ids') nid2
          exact hp2

/-- C6: after `ladderize`, every internal node's ring links other than the
root-facing primary link, read in ring order starting after the primary
link, carry subtree sizes at their outer-end nodes that are sorted by the
chosen order — non-decreasing for small-first, non-increasing for
large-first (`Pairwise` with the comparator's negation) — and the new ring
is exactly the stable sort of the original ring, so links of equal subtree
size keep their original relative ring order (for every size value the
filtered sublists coincide).  The certificate hypothesis checks the
execution of the per-node loop on the given tree. -/
theorem C6_ladderize_sorted_stable (t : Tree) (ord : LadderizeOrder)
    (hcert : ladderCert t ord (t.nodes.map TreeNode.id) [] t = true) :
    ∀ nid ∈ t.nodes.map TreeNode.id, t.is_leaf nid = false →
      ladderNodeProp t ord (ladderize t ord) nid := by
  intro nid hmem hint
  exact (ladder_fold_spec t ord (t.nodes.map TreeNode.id) [] t hcert).2 nid hmem hint

/-- C5: rerooting the tree at a link `L` and then rerooting at the previous
root link `R` restores the tree exactly — every edge's primary/secondary
orientation, every node's primary-link designation and the stored root-link
index return to their original values (the result is the original tree record).
The hypotheses certify the two reroot walks (`trace`), the shape of the path
between the two anchor nodes (`chainB`), the disjointness of the return walk
from the old root node, and the usual arena well-formedness facts. -/
theorem C5_reroot_roundtrip (t : Tree) (L R : Nat) (ps qs : List Nat)
    (hL : t.has_link L = true)
    (hR : t.has_link R = true)
    (hATL : t.link_at (t.link_of L).index = t.link_of L)
    (hATR : t.link_at (t.link_of R).index = t.link_of R)
    (hiR : (t.link_of R).index = t.root_link_)
    (htr1 : trace t.root_node.id (rerootPre t L) (rerootCur t L) ps = true)
    (hlen1 : ps.length < t.links.length)
    (htr2 : trace (List.foldl flipStep (rerootPre t L) ps).root_node.id
      (rerootPre (List.foldl flipStep (rerootPre t L) ps) R)
      (rerootCur (List.foldl flipStep (rerootPre t L) ps) R) qs = true)
    (hlen2 : qs.length < t.links.length)
    (hqs : qs = (ps.map (fun c => (t.link_of c).outer_)).reverse)
    (hcomm : qs.all
      (fun q => !((t.link_of (t.link_of q).outer_).node_ == (t.link_of R).node_)) = true)
    (hcb : chainB (rerootPre t L) ps = true)
    (hnRval : ∀ x ∈ t.nodes, x.id = (t.link_of R).node_ → x.link_ = R)
    (hcons : ps ≠ [] →
      (t.link_of (ps.headD 0)).node_ = (t.link_of L).node_ ∧
      (t.link_of ((t.link_of (lastOr 0 ps)).outer_)).node_ = (t.link_of R).node_ ∧
      (t.link_of (ps.headD 0)).node_ ≠ (t.link_of R).node_ ∧
      (∀ x ∈ t.nodes, x.id = (t.link_of (ps.headD 0)).node_ → x.link_ = ps.headD 0))
    (hnil : ps = [] → (t.link_of L).node_ = (t.link_of R).node_) :
    ∃ t1, reroot t L = .ok t1 0 ∧ reroot t1 R = .ok t 0 := by
  have hl1 : (List.foldl flipStep (rerootPre t L) ps).links = t.links :=
    links_foldl_flipStep ps (rerootPre t L)
  refine ⟨List.foldl flipStep (rerootPre t L) ps, ?_, ?_⟩
  · rw [reroot_eq t L hL,
      loop_eq_foldl t.root_node.id ps (rerootPre t L) (rerootCur t L) t.links.length htr1 hlen1]
  · have hR1 : (List.foldl flipStep (rerootPre t L) ps).has_link R = true := by
      rw [has_link_congr2 _ t hl1]
      exact hR
    rw [reroot_eq _ R hR1]
    rw [loop_eq_foldl (List.foldl flipStep (rerootPre t L) ps).root_node.id qs
      (rerootPre (List.foldl flipStep (rerootPre t L) ps) R)
      (rerootCur (List.foldl flipStep (rerootPre t L) ps) R)
      (List.foldl flipStep (rerootPre t L) ps).links.length htr2
      (by rw [hl1]; exact hlen2)]
    have hpre2 : rerootPre (List.foldl flipStep (rerootPre t L) ps) R =
        ({ List.foldl flipStep (rerootPre t L) ps with
            root_link_ := (t.link_of R).index } : Tree).upd_node
          (t.link_of R).node_ (fun n => { n with link_ := R }) :=
      rerootPre_eq (List.foldl flipStep (rerootPre t L) ps) t R hl1 hATR (link_of_id t R hR)
    have hcomm' : ∀ q ∈ qs,
        (({ List.foldl flipStep (rerootPre t L) ps with
            root_link_ := (t.link_of R).index } : Tree).link_of
          (({ List.foldl flipStep (rerootPre t L) ps with
            root_link_ := (t.link_of R).index } : Tree).link_of q).outer_).node_ ≠
          (t.link_of R).node_ := by
      intro q hq
      have h1 : ({ List.foldl flipStep (rerootPre t L) ps with
          root_link_ := (t.link_of R).index } : Tree).links = t.links := hl1
      simp only [link_of_congr2 _ t h1]
      have hh := List.all_eq_true.mp hcomm q hq
      simpa using hh
    have hmain : List.foldl flipStep
        (rerootPre (List.foldl flipStep (rerootPre t L) ps) R) qs = t := by
      rw [hpre2]
      rw [foldl_flipStep_upd_node qs
        ({ List.foldl flipStep (rerootPre t L) ps with
            root_link_ := (t.link_of R).index } : Tree)
        (t.link_of R).node_ (fun n => { n with link_ := R }) (fun n => rfl) hcomm']
      rw [foldl_flipStep_root]
      have hpre1 : rerootPre t L =
          ({ t with root_link_ := (t.link_of L).index } : Tree).upd_node
            (t.link_of L).node_ (fun n => { n with link_ := L }) :=
        rerootPre_eq t t L rfl hATL (link_of_id t L hL)
      cases ps with
      | nil =>
        have hq0 : qs = [] := by simpa using hqs
        subst hq0
        rw [hpre1]
        have hLR := hnil rfl
        show (Tree.mk t.links
          ((t.nodes.map (fun n => if n.id == (t.link_of L).node_ then { n with link_ := L } else n)).map
            (fun n => if n.id == (t.link_of R).node_ then { n with link_ := R } else n))
          t.edges ((t.link_of R).index) t.next_id) = t
        rw [hiR]
        rw [two_upd_collapse t.nodes (t.link_of L).node_ (t.link_of R).node_ L R hLR hnRval]
      | cons c rest =>
        obtain ⟨hLn0, hmR, hne, hn0val⟩ := hcons (List.cons_ne_nil c rest)
        simp only [List.headD_cons] at hLn0 hne hn0val
        rw [hqs]
        rw [show (((c :: rest).map (fun c' => (t.link_of c').outer_)).reverse : List Nat) =
          (((c :: rest).map (fun c' => ((rerootPre t L).link_of c').outer_)).reverse : List Nat)
          from rfl]
        rw [← unwind_as_folds (c :: rest) (rerootPre t L)]
        rw [unwind_eq (c :: rest) (rerootPre t L) hcb (List.cons_ne_nil c rest)]
        rw [hpre1]
        show (Tree.mk t.links
          ((((t.nodes.map (fun n => if n.id == (t.link_of L).node_ then { n with link_ := L } else n)).map
            (fun n => if n.id == (t.link_of ((t.link_of (lastOr 0 (c :: rest))).outer_)).node_
              then { n with link_ := (t.link_of (lastOr 0 (c :: rest))).outer_ } else n)).map
            (fun n => if n.id == (t.link_of c).node_ then { n with link_ := c } else n)).map
            (fun n => if n.id == (t.link_of R).node_ then { n with link_ := R } else n))
          t.edges ((t.link_of R).index) t.next_id) = t
        rw [hiR]
        rw [four_upd_collapse t.nodes (t.link_of L).node_
          ((t.link_of ((t.link_of (lastOr 0 (c :: rest))).outer_)).node_)
          ((t.link_of c).node_) ((t.link_of R).node_) L
          ((t.link_of (lastOr 0 (c :: rest))).outer_) c R hLn0 hmR hne hn0val hnRval]
    rw [hmain]

/-- C1: `delete_node` dispatches purely on the degree of the target node:
degree 1 performs `delete_leaf_node`, degree 2 performs `delete_linear_node`,
and any other degree (in particular degree at least 3) deletes the entire
subtree anchored at the node's primary link — a preorder region that starts
at the node itself and whose whole node count is removed from the tree, not
a single-node splice. -/
theorem C1_delete_node_dispatch (t : Tree) (n : Nat)
    (hn : t.has_node n = true)
    (hcons : (t.link_of (t.node_of n).link_).node_ = n)
    (hl : t.has_link (t.node_of n).link_ = true)
    (hpwN : (sortNat (collectSub t (t.links.length + 1)
      (t.node_of n).link_).nidx).Pairwise (· < ·))
    (hbN : ∀ e ∈ sortNat (collectSub t (t.links.length + 1)
      (t.node_of n).link_).nidx, e < t.nodes.length)
    (hpwE : (sortNat (collectSub t (t.links.length + 1)
      (t.node_of n).link_).eidx).Pairwise (· < ·))
    (hbE : ∀ e ∈ sortNat (collectSub t (t.links.length + 1)
      (t.node_of n).link_).eidx, e < t.edges.length)
    (hpwL : (sortNat (collectSub t (t.links.length + 1)
      (t.node_of n).link_).lidx).Pairwise (· < ·))
    (hbL : ∀ e ∈ sortNat (collectSub t (t.links.length + 1)
      (t.node_of n).link_).lidx, e < t.links.length) :
    (t.degree n = 1 → delete_node t n = delete_leaf_node t n) ∧
    (t.degree n = 2 → delete_node t n = delete_linear_node t n none) ∧
    (3 ≤ t.degree n →
      delete_node t n = delete_subtree t (t.node_of n).link_ ∧
      (collectSub t (t.links.length + 1) (t.node_of n).link_).nds.head? = some n ∧
      ∃ t', delete_node t n = .ok t' 0 ∧
        t'.node_count = t.node_count -
          (collectSub t (t.links.length + 1) (t.node_of n).link_).nds.length) := by
  refine ⟨?_, ?_, ?_⟩
  · intro hdeg
    simp [delete_node, hn, hdeg]
  · intro hdeg
    simp [delete_node, hn, hdeg]
  · intro hdeg
    have h1 : (t.degree n == 1) = false := by
      simp only [beq_eq_false_iff_ne, ne_eq]
      omega
    have h2 : (t.degree n == 2) = false := by
      simp only [beq_eq_false_iff_ne, ne_eq]
      omega
    have hdisp : delete_node t n = delete_subtree t (t.node_of n).link_ := by
      simp [delete_node, hn, h1, h2]
    refine ⟨hdisp, ?_, ?_⟩
    · simp only [collectSub, List.head?_cons, Option.some.injEq]
      rw [hcons, node_of_id t n hn]
    · obtain ⟨t', hok, hnc, _, _, _⟩ :=
        delete_subtree_spec t (t.node_of n).link_ hl hpwN hbN hpwE hbE hpwL hbL
      exact ⟨t', by rw [hdisp]; exact hok, hnc⟩

/-- C9: for every tree, every edge and every callback, `delete_edge` returns
normally, leaves the tree entirely unchanged and never invokes the callback:
its body is empty. -/
theorem C9_delete_edge_noop (t : Tree) (e : Nat)
    (adjust_nodes : Option (Tree → Nat → Nat → Tree)) :
    delete_edge t e adjust_nodes = .ok t 0 := rfl

/-- C8: every public manipulation operation detects a violated precondition
(target not belonging to the tree; wrong degree for leaf or linear deletion)
before any mutation and reports it to the caller as an error, producing no
mutated tree. -/
theorem C8_precondition_errors (t : Tree) (n e l : Nat)
    (f g : Option (Tree → Nat → Nat → Tree))
    (hn : t.has_node n = false) (he : t.has_edge e = false) (hl : t.has_link l = false) :
    add_new_node t n =
      .err "Cannot add Node to a Tree where the given Node is not part of the Tree." ∧
    add_new_node_edge t e f =
      .err "Cannot add Node to Tree on an Edge that is not part of the Tree." ∧
    delete_node t n =
      .err "Cannot delete Node from a Tree that is not part of the Tree." ∧
    delete_leaf_node t n =
      .err "Cannot delete Node from a Tree that is not part of the Tree." ∧
    delete_linear_node t n g =
      .err "Cannot delete Node from a Tree that is not part of the Tree." ∧
    delete_subtree t l =
      .err "Cannot delete Subtree from a Tree that is not part of the Tree." ∧
    reroot t l =
      .err "Cannot reroot Tree on a Link that is not part of the Tree." ∧
    (∀ n2, t.has_node n2 = true → t.degree n2 ≠ 1 → delete_leaf_node t n2 =
      .err "Cannot delete leaf Node if the Node is not actually a leaf.") ∧
    (∀ n2, t.has_node n2 = true → t.degree n2 ≠ 2 → delete_linear_node t n2 g =
      .err "Cannot delete linear Node if the Node is not actually linear (degree 2).") := by
  refine ⟨?_, ?_, ?_, ?_, ?_, ?_, ?_, ?_, ?_⟩
  · simp [add_new_node, hn]
  · simp [add_new_node_edge, he]
  · simp [delete_node, hn]
  · simp [delete_leaf_node, hn]
  · simp [delete_linear_node.eq_def, hn]
  · simp [delete_subtree, hl]
  · simp [reroot, hl]
  · intro n2 h2 hdeg
    simp [delete_leaf_node, h2, hdeg]
  · intro n2 h2 hdeg
    simp [delete_linear_node.eq_def, h2, hdeg]

/-- C10: both `add_new_node` overloads invoke the payload clone capability
unconditionally, with no presence check and no reportable error path: a
missing payload on the target node (or on the edge at its primary link), or
on the target edge (or on its primary node) for the edge-splitting overload,
makes the operation fault instead of reporting an error, and with the
ownership check passed the operations never report any error at all. -/
theorem C10_add_new_node_payload_fault (t : Tree) (n e : Nat)
    (f : Option (Tree → Nat → Nat → Tree))
    (hn : t.has_node n = true) (he : t.has_edge e = true)
    (hul : t.has_link (t.node_of n).link_ = true)
    (hpl : t.has_link (t.edge_of e).link_p = true) :
    ((t.node_of n).data_ = none → add_new_node t n = .fault) ∧
    ((t.edge_of (t.link_of (t.node_of n).link_).edge_).data_ = none →
      add_new_node t n = .fault) ∧
    ((t.node_of (t.link_of (t.edge_of e).link_p).node_).data_ = none →
      add_new_node_edge t e f = .fault) ∧
    ((t.edge_of e).data_ = none → add_new_node_edge t e f = .fault) ∧
    (∀ m, add_new_node t n ≠ .err m) ∧
    (∀ m, add_new_node_edge t e f ≠ .err m) := by
  obtain ⟨nn, hnn⟩ : ∃ x, t.nodes.find? (fun x => x.id == n) = some x :=
    Option.isSome_iff_exists.mp hn
  obtain ⟨ee, hee⟩ : ∃ x, t.edges.find? (fun x => x.id == e) = some x :=
    Option.isSome_iff_exists.mp he
  obtain ⟨ul, hul'⟩ : ∃ x, t.links.find? (fun x => x.id == (t.node_of n).link_) = some x :=
    Option.isSome_iff_exists.mp hul
  obtain ⟨pl, hpl'⟩ : ∃ x, t.links.find? (fun x => x.id == (t.edge_of e).link_p) = some x :=
    Option.isSome_iff_exists.mp hpl
  have hnofn : t.node_of n = nn := by simp [Tree.node_of, hnn]
  have heofe : t.edge_of e = ee := by simp [Tree.edge_of, hee]
  rw [hnofn] at hul'
  rw [heofe] at hpl'
  refine ⟨?_, ?_, ?_, ?_, ?_, ?_⟩
  · intro hd
    rw [hnofn] at hd
    simp [add_new_node, hn, Tree.node_of, upd_link_nodes, hnn, hd]
  · intro hd
    rw [hnofn] at hd
    simp [Tree.link_of, Tree.edge_of, hul'] at hd
    cases hnd : nn.data_ with
    | none =>
      simp [add_new_node, hn, Tree.node_of, upd_link_nodes, hnn, hnd]
    | some v =>
      simp [add_new_node, hn, Tree.node_of, Tree.link_of, Tree.edge_of,
        upd_link_nodes, upd_link_edges, upd_link_links, hnn, hnd,
        List.find?_append, List.find?_map, Function.comp, Function.comp_def, hul',
        apply_ite TreeLink.id, apply_ite TreeLink.edge_, Option.or_some, hd]
  · intro hd
    rw [heofe] at hd
    simp [Tree.link_of, Tree.node_of, hpl'] at hd
    simp [add_new_node_edge, he, Tree.edge_of, Tree.link_of, Tree.node_of, hee,
      List.find?_append, Option.or_some, hpl', hd]
  · intro hd
    rw [heofe] at hd
    cases hpd : (t.node_of (t.link_of ee.link_p).node_).data_ with
    | none =>
      simp [Tree.link_of, Tree.node_of, hpl'] at hpd
      simp [add_new_node_edge, he, Tree.edge_of, Tree.link_of, Tree.node_of, hee,
        List.find?_append, Option.or_some, hpl', hpd]
    | some v =>
      simp [Tree.link_of, Tree.node_of, hpl'] at hpd
      simp [add_new_node_edge, he, Tree.edge_of, Tree.link_of, Tree.node_of, hee,
        List.find?_append, Option.or_some, hpl', hpd, hd]
  · intro m
    simp only [add_new_node, hn]
    simp only [Bool.not_true, Bool.false_eq_true, if_false]
    split
    · simp
    · split <;> simp
  · intro m
    simp only [add_new_node_edge, he]
    simp only [Bool.not_true, Bool.false_eq_true, if_false]
    split
    · simp
    · split
      · simp
      · split <;> simp

/-- C10 witness: on the cherry tree with all payloads removed, attaching a
leaf to the root node 101 and splitting edge 201 both fault. -/
theorem C10_add_new_node_payload_fault_witness :
    add_new_node cherryND 101 = .fault ∧ add_new_node_edge cherryND 201 none = .fault := by
  have h := C10_add_new_node_payload_fault cherryND 101 201 none
    (by decide) (by decide) (by decide) (by decide)
  exact ⟨h.1 (by decide), h.2.2.2.1 (by decide)⟩

/-- C7: the edge-splitting `add_new_node` rewires so that the former primary
link's outer is the new mid node's primary-side link, the former secondary
link's outer and edge ownership move onto the new edge, and the target
edge's secondary link becomes the new primary-side link (so the edge now
terminates at the mid node); the callback, when supplied, is invoked exactly
once, after the rewiring, with the target edge and the new edge; and the new
edge's payload is a clone of the target edge's payload. -/
theorem C7_add_new_node_edge_rewiring (t : Tree) (e : Nat)
    (he : t.has_edge e = true)
    (hP : t.has_link (t.edge_of e).link_p = true)
    (hS : t.has_link (t.edge_of e).link_s = true)
    (hPS : (t.edge_of e).link_p ≠ (t.edge_of e).link_s)
    (hpn : t.has_node (t.link_of (t.edge_of e).link_p).node_ = true)
    (hnd : (t.node_of (t.link_of (t.edge_of e).link_p).node_).data_.isSome = true)
    (hed : (t.edge_of e).data_.isSome = true)
    (hfL : ∀ l ∈ t.links, l.id < t.next_id)
    (hfN : ∀ x ∈ t.nodes, x.id < t.next_id)
    (hfE : ∀ x ∈ t.edges, x.id < t.next_id) :
    ∃ t7,
      add_new_node_edge t e none = .ok t7 (t.next_id + 2) ∧
      (∀ f, add_new_node_edge t e (some f) = .ok (f t7 e (t.next_id + 3)) (t.next_id + 2)) ∧
      (t7.link_of (t.edge_of e).link_p).outer_ = t.next_id ∧
      (t7.link_of (t.edge_of e).link_s).outer_ = t.next_id + 1 ∧
      (t7.link_of (t.edge_of e).link_s).edge_ = t.next_id + 3 ∧
      (t7.edge_of e).link_s = t.next_id ∧
      (t7.link_of t.next_id).node_ = t.next_id + 2 ∧
      (t7.node_of (t.next_id + 2)).link_ = t.next_id ∧
      (t7.edge_of (t.next_id + 3)).link_p = t.next_id + 1 ∧
      (t7.edge_of (t.next_id + 3)).link_s = (t.edge_of e).link_s ∧
      (t7.edge_of (t.next_id + 3)).data_ = (t.edge_of e).data_ := by
  obtain ⟨ee, hee⟩ : ∃ x, t.edges.find? (fun x => x.id == e) = some x :=
    Option.isSome_iff_exists.mp he
  have heofe : t.edge_of e = ee := by simp [Tree.edge_of, hee]
  have heid : ee.id = e := by simpa using List.find?_some hee
  rw [heofe] at hP hS hPS hpn hnd hed ⊢
  obtain ⟨pl, hpl'⟩ : ∃ x, t.links.find? (fun x => x.id == ee.link_p) = some x :=
    Option.isSome_iff_exists.mp hP
  obtain ⟨sl, hsl'⟩ : ∃ x, t.links.find? (fun x => x.id == ee.link_s) = some x :=
    Option.isSome_iff_exists.mp hS
  have hplid : pl.id = ee.link_p := by simpa using List.find?_some hpl'
  have hslid : sl.id = ee.link_s := by simpa using List.find?_some hsl'
  have hlofP : t.link_of ee.link_p = pl := by simp [Tree.link_of, hpl']
  rw [hlofP] at hpn hnd
  obtain ⟨pn, hpn'⟩ : ∃ x, t.nodes.find? (fun x => x.id == pl.node_) = some x :=
    Option.isSome_iff_exists.mp hpn
  have hnofpn : t.node_of pl.node_ = pn := by simp [Tree.node_of, hpn']
  rw [hnofpn] at hnd
  obtain ⟨nv, hnv⟩ := Option.isSome_iff_exists.mp hnd
  obtain ⟨edv, hedv⟩ := Option.isSome_iff_exists.mp hed
  have hLnone : ∀ k, t.next_id ≤ k → t.links.find? (fun l => l.id == k) = none := by
    intro k hk
    apply List.find?_eq_none.mpr
    intro x hx
    simp only [beq_iff_eq]
    exact Nat.ne_of_lt (Nat.lt_of_lt_of_le (hfL x hx) hk)
  have hNnone : ∀ k, t.next_id ≤ k → t.nodes.find? (fun x => x.id == k) = none := by
    intro k hk
    apply List.find?_eq_none.mpr
    intro x hx
    simp only [beq_iff_eq]
    exact Nat.ne_of_lt (Nat.lt_of_lt_of_le (hfN x hx) hk)
  have hEnone : ∀ k, t.next_id ≤ k → t.edges.find? (fun x => x.id == k) = none := by
    intro k hk
    apply List.find?_eq_none.mpr
    intro x hx
    simp only [beq_iff_eq]
    exact Nat.ne_of_lt (Nat.lt_of_lt_of_le (hfE x hx) hk)
  have hefresh : e < t.next_id := heid ▸ hfE ee (List.mem_of_find?_eq_some hee)
  have hPfresh : ee.link_p < t.next_id := hplid ▸ hfL pl (List.mem_of_find?_eq_some hpl')
  have hSfresh : ee.link_s < t.next_id := hslid ▸ hfL sl (List.mem_of_find?_eq_some hsl')
  cases hres : add_new_node_edge t e none with
  | err m =>
    exfalso
    revert hres
    simp [add_new_node_edge, he, Tree.node_of, Tree.link_of, Tree.edge_of, hee,
      List.find?_append, Option.or_some, hpl', hpn', hnv, hedv, upd_link_nodes]
  | fault =>
    exfalso
    revert hres
    simp [add_new_node_edge, he, Tree.node_of, Tree.link_of, Tree.edge_of, hee,
      List.find?_append, Option.or_some, hpl', hpn', hnv, hedv, upd_link_nodes]
  | ok t7 r =>
    have hres' := hres
    simp [add_new_node_edge, he, Tree.node_of, Tree.link_of, Tree.edge_of, hee,
      List.find?_append, Option.or_some, hpl', hpn', hnv, hedv, upd_link_nodes] at hres'
    obtain ⟨hA, hr⟩ := hres'
    subst hr
    subst hA
    have hps' : ee.link_s ≠ ee.link_p := Ne.symm hPS
    have hnp : t.next_id ≠ ee.link_p := Nat.ne_of_gt hPfresh
    have hns : t.next_id ≠ ee.link_s := Nat.ne_of_gt hSfresh
    have hne3 : t.next_id + 3 ≠ e := by omega
    refine ⟨_, rfl, ?_, ?_, ?_, ?_, ?_, ?_, ?_, ?_, ?_⟩
    · intro f
      simp [add_new_node_edge, he, Tree.node_of, Tree.link_of, Tree.edge_of, hee,
        List.find?_append, Option.or_some, hpl', hpn', hnv, hedv, upd_link_nodes]
    all_goals
      simp [Tree.link_of, Tree.node_of, Tree.edge_of, Tree.upd_link, Tree.upd_edge,
        List.find?_append, List.find?_map, Function.comp_def, hpl', hsl', hee, hpn',
        hnv, hedv, hplid, hslid, heid, hPS, hps', hnp, hns, hne3, hLnone, hNnone, hEnone,
        apply_ite TreeLink.id, apply_ite TreeLink.outer_, apply_ite TreeLink.edge_,
        apply_ite TreeLink.node_, apply_ite TreeEdge.id, apply_ite TreeEdge.link_p,
        apply_ite TreeEdge.link_s, apply_ite TreeEdge.data_]

/-- C3: deleting a leaf node removes exactly one node, one edge and two links
(the leaf's own link and the neighbor-side attach link), and re-establishes
the index invariant: every surviving element's stored index equals its
position, contiguously from 0. -/
theorem C3_delete_leaf_node_counts (t : Tree) (target : Nat)
    (hIdx : TreeIndexed t)
    (hn : t.has_node target = true) (hdeg : t.degree target = 1)
    (hEI : (t.edge_of (t.link_of (t.node_of target).link_).edge_).index < t.edges.length)
    (hIA : (t.link_of (t.link_of (t.node_of target).link_).outer_).index < t.links.length)
    (hIB : (t.link_of (t.link_of (t.link_of (t.node_of target).link_).outer_).outer_).index
      < t.links.length)
    (hAB : (t.link_of (t.link_of (t.node_of target).link_).outer_).index ≠
      (t.link_of (t.link_of (t.link_of (t.node_of target).link_).outer_).outer_).index)
    (hNI : (t.node_of target).index < t.nodes.length) :
    ∃ t', delete_leaf_node t target = .ok t' 0 ∧
      t'.node_count = t.node_count - 1 ∧
      t'.edge_count = t.edge_count - 1 ∧
      t'.link_count = t.link_count - 2 ∧
      TreeIndexed t' := by
  cases hres : delete_leaf_node t target with
  | err m =>
    revert hres
    simp only [delete_leaf_node, hn, hdeg, bne_self_eq_false, Bool.not_true,
      Bool.false_eq_true, if_false]
    intro h
    exact absurd h (by simp)
  | fault =>
    revert hres
    simp only [delete_leaf_node, hn, hdeg, bne_self_eq_false, Bool.not_true,
      Bool.false_eq_true, if_false]
    intro h
    exact absurd h (by simp)
  | ok t4 r =>
    have hres' := hres
    simp only [delete_leaf_node, hn, hdeg, minmax_value, Bool.not_true, Bool.false_eq_true,
      if_false, bne_self_eq_false, upd_link_nodes, upd_link_edges, upd_link_links,
      upd_link_root, upd_link_next_id,
      link_of_set_edges, node_of_set_edges, node_of_set_links, link_of_set_nodes,
      edge_of_set_links, edge_of_set_nodes, findPred_set_edges,
      link_of_mk_of_links, node_of_mk_of_nodes, edge_of_mk_of_edges,
      link_of_upd_next_index, link_of_upd_next_outer, MResult.ok.injEq] at hres'
    obtain ⟨hA, hr⟩ := hres'
    subst hr
    subst hA
    have hminA : (t.link_of (t.link_of (t.node_of target).link_).outer_).index ⊓
        (t.link_of (t.link_of (t.link_of (t.node_of target).link_).outer_).outer_).index
        ≤ (t.link_of (t.link_of (t.node_of target).link_).outer_).index :=
      Nat.min_le_left _ _
    have hminB : (t.link_of (t.link_of (t.node_of target).link_).outer_).index ⊓
        (t.link_of (t.link_of (t.link_of (t.node_of target).link_).outer_).outer_).index
        ≤ (t.link_of (t.link_of (t.link_of (t.node_of target).link_).outer_).outer_).index :=
      Nat.min_le_right _ _
    have hmaxA : (t.link_of (t.link_of (t.node_of target).link_).outer_).index ≤
        (t.link_of (t.link_of (t.node_of target).link_).outer_).index ⊔
        (t.link_of (t.link_of (t.link_of (t.node_of target).link_).outer_).outer_).index :=
      Nat.le_max_left _ _
    have hmaxB : (t.link_of (t.link_of (t.link_of (t.node_of target).link_).outer_).outer_).index
        ≤ (t.link_of (t.link_of (t.node_of target).link_).outer_).index ⊔
        (t.link_of (t.link_of (t.link_of (t.node_of target).link_).outer_).outer_).index :=
      Nat.le_max_right _ _
    have hmm : (t.link_of (t.link_of (t.node_of target).link_).outer_).index ⊓
        (t.link_of (t.link_of (t.link_of (t.node_of target).link_).outer_).outer_).index <
        (t.link_of (t.link_of (t.node_of target).link_).outer_).index ⊔
        (t.link_of (t.link_of (t.link_of (t.node_of target).link_).outer_).outer_).index := by
      rcases Nat.lt_or_ge (t.link_of (t.link_of (t.node_of target).link_).outer_).index
        (t.link_of (t.link_of (t.link_of (t.node_of target).link_).outer_).outer_).index
        with hlt | hge
      · omega
      · have : (t.link_of (t.link_of (t.link_of (t.node_of target).link_).outer_).outer_).index
            < (t.link_of (t.link_of (t.node_of target).link_).outer_).index := by omega
        omega
    have hlenmap : (List.map (fun l =>
        if (l.id == findPred t (t.link_of (t.node_of target).link_).outer_ t.links.length
            (t.link_of (t.link_of (t.node_of target).link_).outer_).next_) = true then
          { id := l.id, index := l.index,
            next_ := (t.link_of (t.link_of (findPred t
              (t.link_of (t.node_of target).link_).outer_ t.links.length
              (t.link_of (t.link_of (t.node_of target).link_).outer_).next_)).next_).next_,
            outer_ := l.outer_, node_ := l.node_, edge_ := l.edge_ }
        else l) t.links).length = t.links.length := List.length_map _ _
    have hlo : (t.link_of (t.link_of (t.node_of target).link_).outer_).index ⊓
        (t.link_of (t.link_of (t.link_of (t.node_of target).link_).outer_).outer_).index <
        t.links.length := lt_of_le_of_lt hminA hIA
    have hhi : (t.link_of (t.link_of (t.node_of target).link_).outer_).index ⊔
        (t.link_of (t.link_of (t.link_of (t.node_of target).link_).outer_).outer_).index <
        t.links.length := by
      rcases Nat.lt_or_ge (t.link_of (t.link_of (t.node_of target).link_).outer_).index
        (t.link_of (t.link_of (t.link_of (t.node_of target).link_).outer_).outer_).index
        with hlt | hge
      · omega
      · omega
    have hL4 : (reindexFrom TreeLink.setIdx
        ((t.link_of (t.link_of (t.node_of target).link_).outer_).index ⊓
          (t.link_of (t.link_of (t.link_of (t.node_of target).link_).outer_).outer_).index)
        (((List.map (fun l =>
            if (l.id == findPred t (t.link_of (t.node_of target).link_).outer_ t.links.length
                (t.link_of (t.link_of (t.node_of target).link_).outer_).next_) = true then
              { id := l.id, index := l.index,
                next_ := (t.link_of (t.link_of (findPred t
                  (t.link_of (t.node_of target).link_).outer_ t.links.length
                  (t.link_of (t.link_of (t.node_of target).link_).outer_).next_)).next_).next_,
                outer_ := l.outer_, node_ := l.node_, edge_ := l.edge_ }
            else l) t.links).eraseIdx
          ((t.link_of (t.link_of (t.node_of target).link_).outer_).index ⊓
            (t.link_of (t.link_of (t.link_of (t.node_of target).link_).outer_).outer_).index)).eraseIdx
          ((t.link_of (t.link_of (t.node_of target).link_).outer_).index ⊔
            (t.link_of (t.link_of (t.link_of (t.node_of target).link_).outer_).outer_).index
            - 1))).length = t.links.length - 2 := by
      rw [reindexFrom_length, List.length_eraseIdx, List.length_eraseIdx, hlenmap,
        if_pos hlo, if_pos (by omega)]
      omega
    have hN4 : (reindexFrom TreeNode.setIdx (t.node_of target).index
        (t.nodes.eraseIdx (t.node_of target).index)).length = t.nodes.length - 1 := by
      rw [reindexFrom_length, List.length_eraseIdx, if_pos hNI]
    have hE4 : (reindexFrom TreeEdge.setIdx
        (t.edge_of (t.link_of (t.node_of target).link_).edge_).index
        (t.edges.eraseIdx (t.edge_of (t.link_of (t.node_of target).link_).edge_).index)).length
        = t.edges.length - 1 := by
      rw [reindexFrom_length, List.length_eraseIdx, if_pos hEI]
    refine ⟨_, rfl, hN4, hE4, hL4, ?_, ?_, ?_⟩
    · intro i hi
      have hi2 : i < t.links.length - 2 := by
        unfold Tree.link_count at hi
        rw [hL4] at hi
        exact hi
      show (Tree.link_at _ i).index = i
      unfold Tree.link_at
      rw [reindexFrom_getD]
      · split
        · rfl
        · rename_i hilt
          rw [getD_eraseIdx]
          · rw [if_pos (by omega)]
            rw [getD_eraseIdx]
            · rw [if_pos (by omega)]
              rw [getD_map_of_lt _ default _ _ _ (by omega)]
              have hidx := hIdx.1 i (by unfold Tree.link_count; omega)
              unfold Tree.link_at at hidx
              split
              · exact hidx
              · exact hidx
            · omega
          · rw [List.length_eraseIdx, hlenmap, if_pos hlo]
            omega
      · rw [List.length_eraseIdx, List.length_eraseIdx, hlenmap, if_pos hlo,
          if_pos (by omega)]
        omega
    · intro i hi
      have hi2 : i < t.nodes.length - 1 := by
        unfold Tree.node_count at hi
        rw [hN4] at hi
        exact hi
      show (Tree.node_at _ i).index = i
      unfold Tree.node_at
      rw [reindexFrom_getD]
      · split
        · rfl
        · rw [getD_eraseIdx _ _ _ _ hNI, if_pos (by omega)]
          have hidx := hIdx.2.1 i (by unfold Tree.node_count; omega)
          unfold Tree.node_at at hidx
          exact hidx
      · rw [List.length_eraseIdx, if_pos hNI]
        omega
    · intro i hi
      have hi2 : i < t.edges.length - 1 := by
        unfold Tree.edge_count at hi
        rw [hE4] at hi
        exact hi
      show (Tree.edge_at _ i).index = i
      unfold Tree.edge_at
      rw [reindexFrom_getD]
      · split
        · rfl
        · rw [getD_eraseIdx _ _ _ _ hEI, if_pos (by omega)]
          have hidx := hIdx.2.2 i (by unfold Tree.edge_count; omega)
          unfold Tree.edge_at at hidx
          exact hidx
      · rw [List.length_eraseIdx, if_pos hEI]
        omega

/-- C2: deleting the degree-1 root of the path tree.  The code moves the root
designation to `target_node.link().outer()` — the link on the neighbor's side
of the leaf's edge — but that very link is one of the two links the operation
erases, so after the deletion no link with that identity exists in the tree
and the stored root-link index cannot be that link's new index: the final
`reset_root_link_index( root_link->index() )` reads a destroyed element (a
use-after-free in the C++ source).  The neighbor node 102 itself survives. -/
theorem C2_delete_leaf_root_link_erased :
    pathT.degree 101 = 1 ∧
    pathT.is_root 101 = true ∧
    pathT.root_link.id = 1 ∧
    (pathT.link_of 1).outer_ = 2 ∧
    (delete_leaf_node pathT 101).tree.has_link 2 = false ∧
    (delete_leaf_node pathT 101).tree.has_node 102 = true := by decide

/-- C3 witness: deleting the leaf 103 of the cherry tree leaves 2 nodes,
1 edge and 2 links, all position-indexed. -/
theorem C3_delete_leaf_node_counts_witness :
    ∃ t', delete_leaf_node cherryT 103 = .ok t' 0 ∧
      t'.node_count = 2 ∧ t'.edge_count = 1 ∧ t'.link_count = 2 ∧ TreeIndexed t' := by
  obtain ⟨t', h1, h2, h3, h4, h5⟩ := C3_delete_leaf_node_counts cherryT 103
    (by decide) (by decide) (by decide) (by decide) (by decide) (by decide)
    (by decide) (by decide)
  exact ⟨t', h1, h2, h3, h4, h5⟩

/-- C7 witness: splitting edge 201 of the cherry tree produces the mid node
502; the retained edge now ends in the new primary-side link 500, and the new
edge 503 carries a clone of edge 201's payload. -/
theorem C7_add_new_node_edge_rewiring_witness :
    ∃ t7, add_new_node_edge cherryT 201 none = .ok t7 502 ∧
      (t7.edge_of 201).link_s = 500 ∧
      (t7.link_of 3).edge_ = 503 ∧
      (t7.edge_of 503).data_ = (cherryT.edge_of 201).data_ := by
  obtain ⟨t7, h1, h2, h3, h4, h5, h6, h7, h8, h9, h10, h11⟩ :=
    C7_add_new_node_edge_rewiring cherryT 201 (by decide) (by decide) (by decide)
      (by decide) (by decide) (by decide) (by decide) (by decide) (by decide) (by decide)
  exact ⟨t7, h1, h6, h5, h11⟩

/-- C4 witness: deleting the subtree of the spec tree anchored at link 8
(the clade (D,E)C, spanning k = 3 nodes) removes 3 nodes, 3 edges and 6
links and keeps the root designation on link 1. -/
theorem C4_delete_subtree_counts_and_root_witness :
    specT.has_link 8 = true ∧
    (∃ t', delete_subtree specT 8 = .ok t' 0 ∧
      t'.node_count = specT.node_count - 3 ∧
      t'.edge_count = specT.edge_count - 3 ∧
      t'.link_count = specT.link_count - 2 * 3 ∧
      t'.root_link.id = specT.root_link.id) :=
  ⟨by decide, C4_delete_subtree_counts_and_root specT 8 3 (by decide) (by decide)
    (by decide) (by decide) (by decide) (by decide) (by decide) (by decide)
    (by decide) (by decide) (by decide) (by decide)⟩

/-- C1 witness: node 104 (`C`) of the spec tree has degree 3; `delete_node`
on it performs `delete_subtree` at its primary link 8, the preorder region
starts at node 104 itself, and the whole region of 3 nodes is removed. -/
theorem C1_delete_node_dispatch_witness :
    specT.has_node 104 = true ∧ 3 ≤ specT.degree 104 ∧
    (delete_node specT 104 = delete_subtree specT (specT.node_of 104).link_ ∧
      (collectSub specT (specT.links.length + 1)
        (specT.node_of 104).link_).nds.head? = some 104 ∧
      ∃ t', delete_node specT 104 = .ok t' 0 ∧
        t'.node_count = specT.node_count -
          (collectSub specT (specT.links.length + 1)
            (specT.node_of 104).link_).nds.length) :=
  ⟨by decide, by decide,
    (C1_delete_node_dispatch specT 104 (by decide) (by decide) (by decide)
      (by decide) (by decide) (by decide) (by decide) (by decide)
      (by decide)).2.2 (by decide)⟩

/-- C6 witness: ladderizing the spec tree in both orders; e.g. at the root
the child subtree sizes [1, 3] stay [1, 3] for small-first and become [3, 1]
for large-first, and the equal-sized children of `G` keep their order. -/
theorem C6_ladderize_sorted_stable_witness :
    (ladderCert specT LadderizeOrder.kSmallFirst (specT.nodes.map TreeNode.id) [] specT = true ∧
      ∀ nid ∈ specT.nodes.map TreeNode.id, specT.is_leaf nid = false →
        ladderNodeProp specT LadderizeOrder.kSmallFirst
          (ladderize specT LadderizeOrder.kSmallFirst) nid) ∧
    (ladderCert specT LadderizeOrder.kLargeFirst (specT.nodes.map TreeNode.id) [] specT = true ∧
      ∀ nid ∈ specT.nodes.map TreeNode.id, specT.is_leaf nid = false →
        ladderNodeProp specT LadderizeOrder.kLargeFirst
          (ladderize specT LadderizeOrder.kLargeFirst) nid) :=
  ⟨⟨by decide, C6_ladderize_sorted_stable specT LadderizeOrder.kSmallFirst (by decide)⟩,
   ⟨by decide, C6_ladderize_sorted_stable specT LadderizeOrder.kLargeFirst (by decide)⟩⟩

/-- C5 witness: rerooting the spec tree at link 8 (at node `C`) and then at
the original root link 1 returns exactly the original tree: both walks
process two path steps (links 8, 4 out; links 1, 6 back). -/
theorem C5_reroot_roundtrip_witness :
    specT.has_link 8 = true ∧
    (∃ t1, reroot specT 8 = .ok t1 0 ∧ reroot t1 1 = .ok specT 0) :=
  ⟨by decide, C5_reroot_roundtrip specT 8 1 [8, 4] [1, 6] (by decide) (by decide)
    (by decide) (by decide) (by decide) (by decide) (by decide) (by decide)
    (by decide) (by decide) (by decide) (by decide) (by decide) (by decide)
    (by decide)⟩

/-- C8 witness: on the cherry tree, the id 999 belongs to no element, node
101 is the degree-2 root and node 103 is a leaf. -/
theorem C8_precondition_errors_witness :
    delete_leaf_node cherryT 999 =
      .err "Cannot delete Node from a Tree that is not part of the Tree." ∧
    delete_leaf_node cherryT 101 =
      .err "Cannot delete leaf Node if the Node is not actually a leaf." ∧
    delete_linear_node cherryT 103 none =
      .err "Cannot delete linear Node if the Node is not actually linear (degree 2)." := by
  have h := C8_precondition_errors cherryT 999 999 999 none none
    (by decide) (by decide) (by decide)
  refine ⟨h.2.2.2.1, ?_, ?_⟩
  · exact h.2.2.2.2.2.2.2.1 101 (by decide) (by decide)
  · exact h.2.2.2.2.2.2.2.2 103 (by decide) (by decide)

end Genesis
